import Mathlib

/-!
Verification of the srs-interpolation library: conversion of a structured
reference string (SRS) of short-Weierstrass curve points from the monomial
power basis to the Lagrange basis over a power-of-two evaluation domain.

The development shallowly embeds the three source modules:
  error.rs  : the error enumeration,
  utils.rs  : bit_reverse, fft_round, distribute_powers,
  lib.rs    : srs_to_lagrange.
Machine integers (usize) are modelled as natural numbers; a Rust panic is
modelled by the outer layer of an Option (none = panic); fallible results
are modelled by Except.  The external arkworks collaborators (base and
scalar field arithmetic, affine point scalar multiplication, evaluation
domain generator) are modelled over an abstract field of coordinates, the
scalar field ZMod r, and an executable affine group law.
-/

namespace SrsVerif

/-- Embedding of the error enumeration of error.rs. -/
inductive InterpolationError where
  | InvalidParameters (s : String)
  | FieldError (s : String)
  | SizeError
  deriving DecidableEq

deriving instance DecidableEq for Except

/-- Embedding of the 256-entry byte-reversal lookup table of utils.rs. -/
def BYTE_SWAP_TABLE : List ℕ := [
  0, 128, 64, 192, 32, 160, 96, 224, 16, 144, 80, 208, 48, 176, 112, 240, 8, 136, 72, 200, 40,
  168, 104, 232, 24, 152, 88, 216, 56, 184, 120, 248, 4, 132, 68, 196, 36, 164, 100, 228, 20,
  148, 84, 212, 52, 180, 116, 244, 12, 140, 76, 204, 44, 172, 108, 236, 28, 156, 92, 220, 60,
  188, 124, 252, 2, 130, 66, 194, 34, 162, 98, 226, 18, 146, 82, 210, 50, 178, 114, 242, 10, 138,
  74, 202, 42, 170, 106, 234, 26, 154, 90, 218, 58, 186, 122, 250, 6, 134, 70, 198, 38, 166, 102,
  230, 22, 150, 86, 214, 54, 182, 118, 246, 14, 142, 78, 206, 46, 174, 110, 238, 30, 158, 94,
  222, 62, 190, 126, 254, 1, 129, 65, 193, 33, 161, 97, 225, 17, 145, 81, 209, 49, 177, 113, 241,
  9, 137, 73, 201, 41, 169, 105, 233, 25, 153, 89, 217, 57, 185, 121, 249, 5, 133, 69, 197, 37,
  165, 101, 229, 21, 149, 85, 213, 53, 181, 117, 245, 13, 141, 77, 205, 45, 173, 109, 237, 29,
  157, 93, 221, 61, 189, 125, 253, 3, 131, 67, 195, 35, 163, 99, 227, 19, 147, 83, 211, 51, 179,
  115, 243, 11, 139, 75, 203, 43, 171, 107, 235, 27, 155, 91, 219, 59, 187, 123, 251, 7, 135, 71,
  199, 39, 167, 103, 231, 23, 151, 87, 215, 55, 183, 119, 247, 15, 143, 79, 207, 47, 175, 111,
  239, 31, 159, 95, 223, 63, 191, 127, 255]

/-- Byte k of the little-endian byte representation of a 64-bit machine word
(the Rust expression index.to_le_bytes()[k]). -/
def toLeByte (index k : ℕ) : ℕ := index / 2 ^ (8 * k) % 256

/-- Little-endian reassembly of a list of bytes
(the Rust expression usize::from_le_bytes). -/
def fromLeBytes (l : List ℕ) : ℕ := l.foldr (fun b acc => b + 256 * acc) 0

/-- Embedding of Vec::resize(8, 0): truncate or zero-pad a byte list to
exactly eight entries. -/
def resizeTo8 (l : List ℕ) : List ℕ := l.take 8 ++ List.replicate (8 - l.length) 0

/-- Embedding of bit_reverse from utils.rs.  The outer Option models the Rust
panic that occurs when bytes[num_bytes] is out of bounds (log_n at least 64);
the Except layer carries the defensive InvalidParameters error of the source. -/
def bit_reverse (index log_n : ℕ) : Option (Except InterpolationError ℕ) :=
  let num_bytes := log_n / 8
  let leftover := log_n % 8
  if 8 ≤ num_bytes then none
  else
    let reversed_bytes : List ℕ :=
      BYTE_SWAP_TABLE.getD (toLeByte index num_bytes) 0 ::
        (List.range num_bytes).map
          (fun i => BYTE_SWAP_TABLE.getD (toLeByte index (num_bytes - 1 - i)) 0)
    let reversed_bytes := resizeTo8 reversed_bytes
    if reversed_bytes.length = 8 then
      some (Except.ok (fromLeBytes reversed_bytes >>> (8 - leftover)))
    else
      some (Except.error (InterpolationError.InvalidParameters
        "Could not convert vector to array of length 8"))

/-- Mathematical reversal of the low L bits of a natural number: bit t of the
input (for t below L) becomes bit L - 1 - t of the result, and all higher
bits are discarded. -/
def natRev : ℕ → ℕ → ℕ
  | 0, _ => 0
  | L + 1, i => i % 2 * 2 ^ L + natRev L (i / 2)

section CurveModel

variable {K : Type} [Field K] [DecidableEq K]

/-- Modelled from the spec: the short Weierstrass curve of the external curve
configuration collaborator, with coefficients a and b. -/
def Wcurve (a b : K) : WeierstrassCurve.Affine K :=
  { a₁ := 0, a₂ := 0, a₃ := 0, a₄ := a, a₆ := b }

/-- Modelled from the spec: negation of an affine representation.  The value
none stands for the point at infinity. -/
def ecNeg (p : Option (K × K)) : Option (K × K) := p.map (fun q => (q.1, -q.2))

/-- Modelled from the spec: addition of affine representations of points of
the short Weierstrass curve with coefficient a, the collaborator capability
of point addition and doubling.  none stands for the point at infinity. -/
def ecAdd (a : K) : Option (K × K) → Option (K × K) → Option (K × K)
  | none, q => q
  | some p, none => some p
  | some (x₁, y₁), some (x₂, y₂) =>
    if x₁ = x₂ then
      if y₁ = -y₂ then none
      else
        let l := (3 * x₁ ^ 2 + a) / (2 * y₁)
        let x₃ := l ^ 2 - x₁ - x₂
        some (x₃, l * (x₁ - x₃) - y₁)
    else
      let l := (y₂ - y₁) / (x₂ - x₁)
      let x₃ := l ^ 2 - x₁ - x₂
      some (x₃, l * (x₁ - x₃) - y₁)

/-- Modelled from the spec: scalar multiplication by a natural number, the
collaborator capability of point scalar multiplication. -/
def ecSmul (a : K) : ℕ → Option (K × K) → Option (K × K)
  | 0, _ => none
  | n + 1, p => ecAdd a p (ecSmul a n p)

/-- Modelled from the spec: the arkworks composite of multiplying an affine
point by a scalar field element and converting back to affine form.  The
point at infinity, unreachable under the stated preconditions, is rendered
as the coordinate pair of the arkworks infinity encoding. -/
def pointSmul (a : K) (r : ℕ) (c : ZMod r) (xy : K × K) : K × K :=
  match ecSmul a c.val (some xy) with
  | some q => q
  | none => (0, 0)

end CurveModel

section Embedding

variable {K : Type} [Field K] [DecidableEq K]

/-- Tail of distribute_powers from utils.rs: the running power pow starts at
g and is multiplied by g after each element. -/
def distribute_powers_aux {α F' : Type} [Mul F'] (mulFn : α → F' → α) (g : F') :
    F' → List α → List α
  | _, [] => []
  | pow, c :: rest => mulFn c pow :: distribute_powers_aux mulFn g (pow * g) rest

/-- Embedding of distribute_powers from utils.rs, generic over the point type
and the collaborator point-times-scalar multiplication exactly as the source
is generic over the curve configuration.  Element 0 is skipped. -/
def distribute_powers {α F' : Type} [Mul F'] (mulFn : α → F' → α)
    (coeffs : List α) (g : F') : List α :=
  match coeffs with
  | [] => []
  | c₀ :: rest => c₀ :: distribute_powers_aux mulFn g g rest

/-- Fuel-driven worker for chunkExact; the fuel is an upper bound on the
number of chunks still to produce. -/
def chunkAux {α : Type} (k : ℕ) : ℕ → List α → List (List α)
  | _, [] => []
  | 0, _ => []
  | fuel + 1, l => l.take k :: chunkAux k fuel (l.drop k)

/-- Division of a list into consecutive chunks of size k (the final chunk may
be shorter), mirroring slice::chunks. -/
def chunkExact {α : Type} (k : ℕ) (l : List α) : List (List α) :=
  if k = 0 then [] else chunkAux k l.length l

/-- Forward pass of the butterfly round of utils.rs: walking the pairs in
ascending order, record per pair the coordinate sum x1 + x2, the scaled
difference (y2 - y1) times the running accumulator, the delta x2 - x1, and
(y2 + y1) times the negated running accumulator, folding each delta into the
accumulator.  Returns the final accumulator and the records in order. -/
def fwdPass : K → List ((K × K) × (K × K)) → K × List (K × K × K × K)
  | acc, [] => (acc, [])
  | acc, ((x₁, y₁), (x₂, y₂)) :: rest =>
    let sx := x₁ + x₂
    let qx := x₂ - x₁
    let qy := (y₂ + y₁) * (-acc)
    let sy := (y₂ - y₁) * acc
    let next := fwdPass (acc * qx) rest
    (next.1, (sx, sy, qx, qy) :: next.2)

/-- Backward pass of the butterfly round of utils.rs: walking the recorded
pairs in descending order with the inverted accumulator, recover each pair's
slopes and emit the final coordinates of P + Q and P - Q. -/
def bwdPass : K → List ((K × K) × (K × K × K × K)) → K × List ((K × K) × (K × K))
  | accInv, [] => (accInv, [])
  | accInv, (p, rec) :: rest =>
    let later := bwdPass accInv rest
    let x₁ := p.1
    let y₁ := p.2
    let sx := rec.1
    let sy := rec.2.1
    let qx := rec.2.2.1
    let qy := rec.2.2.2
    let qySlope := qy * later.1
    let sySlope := sy * later.1
    let accNext := later.1 * qx
    let qxNew := qySlope * qySlope - sx
    let qyNew := qySlope * (x₁ - qxNew) - y₁
    let pxNew := sySlope * sySlope - sx
    let pyNew := sySlope * (x₁ - pxNew) - y₁
    (accNext, ((pxNew, pyNew), (qxNew, qyNew)) :: later.2)

/-- Twist stage of fft_round: in every chunk of size k, multiply element
half + i of the chunk by the i-th power of g through distribute_powers. -/
def twistPoints (a : K) (r : ℕ) (k half : ℕ) (points : List (K × K)) (g : ZMod r) :
    List (K × K) :=
  ((chunkExact k points).map (fun ch => ch.take half ++
    distribute_powers (fun xy c => pointSmul a r c xy) (ch.drop half) g)).flatten

/-- Pair extraction of fft_round: in every chunk of size k, pair element j
of the lower half with element j + half. -/
def pairUp (k half : ℕ) (pts : List (K × K)) : List ((K × K) × (K × K)) :=
  ((chunkExact k pts).map (fun ch => (ch.take half).zip (ch.drop half))).flatten

/-- Embedding of fft_round from utils.rs over coordinate pairs of the base
field, parameterised by the curve coefficient a and the scalar field order r
of the curve configuration collaborator. -/
def fft_round (a : K) (r : ℕ) (is_first_round : Bool) (points : List (K × K))
    (g : ZMod r) (round_number : ℕ) : Except InterpolationError (List (K × K)) :=
  let k := 2 ^ round_number
  let half := k / 2
  let twisted := if is_first_round then points else twistPoints a r k half points g
  let pairList := pairUp k half twisted
  let fwd := fwdPass 1 pairList
  if fwd.1 = 0 then
    Except.error (InterpolationError.FieldError
      "Could not invert batch inversion accumulator")
  else
    let withP := (pairList.map Prod.fst).zip fwd.2
    let bwd := bwdPass fwd.1⁻¹ withP
    Except.ok (((chunkExact half bwd.2).map
      (fun prs => prs.map Prod.fst ++ prs.map Prod.snd)).flatten)

/-- Fuel-driven floor base-2 logarithm; the fuel bounds the recursion depth
and any fuel of at least the input is exact. -/
def log2Aux : ℕ → ℕ → ℕ
  | 0, _ => 0
  | fuel + 1, n => if 2 ≤ n then log2Aux fuel (n / 2) + 1 else 0

/-- Embedding of usize::ilog2: the floor base-2 logarithm of a machine word;
none models the panic on a zero input. -/
def usize_ilog2 (n : ℕ) : Option ℕ := if n = 0 then none else some (log2Aux n n)

/-- Construction of the bit-reversed working copy of lib.rs, propagating the
Except errors of bit_reverse and the panic of an out-of-range position. -/
def collectOrdered (points : List (K × K)) (log : ℕ) :
    List ℕ → Option (Except InterpolationError (List (K × K)))
  | [] => some (Except.ok [])
  | i :: rest =>
    match bit_reverse i log with
    | none => none
    | some (Except.error e) => some (Except.error e)
    | some (Except.ok j) =>
      match points[j]? with
      | none => none
      | some p =>
        match collectOrdered points log rest with
        | none => none
        | some (Except.error e) => some (Except.error e)
        | some (Except.ok l) => some (Except.ok (p :: l))

/-- The round loop of srs_to_lagrange: for i in 1..=log, one butterfly round
with the (n >> i)-th power of the domain's inverse generator, the first
round flagged. -/
def srs_rounds (a : K) (r : ℕ) (genInv : ZMod r) (n log : ℕ)
    (pts : List (K × K)) : Except InterpolationError (List (K × K)) :=
  (List.range' 1 log).foldlM
    (fun acc i => fft_round a r (decide (i = 1)) acc (genInv ^ (n >>> i)) i) pts

/-- Embedding of srs_to_lagrange from lib.rs.  The outer Option models the
panic of usize::ilog2 on an empty input and of out-of-range indexing; the
parameter domain models the external Radix2EvaluationDomain constructor,
none when no evaluation domain of the requested size exists for the scalar
field, otherwise carrying the domain's inverse generator; the parameter
sfInv models the collaborator scalar-field inversion applied to a nonzero
element. -/
def srs_to_lagrange (a : K) (r : ℕ) (sfInv : ZMod r → ZMod r)
    (domain : Option (ZMod r)) (points : List (K × K)) :
    Option (Except InterpolationError (List (K × K))) :=
  match usize_ilog2 points.length with
  | none => none
  | some log_point_size =>
    let point_size := 2 ^ log_point_size
    if points.length ≠ point_size then some (Except.error InterpolationError.SizeError)
    else if points.length = 1 then some (Except.ok points)
    else
      match collectOrdered points log_point_size (List.range points.length) with
      | none => none
      | some (Except.error e) => some (Except.error e)
      | some (Except.ok ordered) =>
        match domain with
        | none => some (Except.error InterpolationError.SizeError)
        | some genInv =>
          match srs_rounds a r genInv point_size log_point_size ordered with
          | Except.error e => some (Except.error e)
          | Except.ok transformed =>
            if (point_size : ZMod r) = 0 then
              some (Except.error (InterpolationError.FieldError
                "Could not invert domain size"))
            else
              some (Except.ok (transformed.map
                (fun p => pointSmul a r (sfInv (point_size : ZMod r)) p)))

end Embedding

section SpecModel

variable {K : Type} [Field K] [DecidableEq K]

/-- The short Weierstrass curve equation with coefficients a and b at a
coordinate pair. -/
def onCurve (a b : K) (p : K × K) : Prop := p.2 ^ 2 = p.1 ^ 3 + a * p.1 + b

instance (a b : K) (p : K × K) : Decidable (onCurve a b p) := by
  unfold onCurve
  infer_instance

/-- The affine representation p stands for the nonsingular rational point P
of the curve with coefficients a and b: none stands for the zero point, and
a coordinate pair for the nonsingular affine point with those coordinates. -/
def PRep (a b : K) (p : Option (K × K)) : (Wcurve a b).Point → Prop :=
  match p with
  | none => fun P => P = 0
  | some xy => fun P => ∃ h : (Wcurve a b).Nonsingular xy.1 xy.2,
      P = WeierstrassCurve.Affine.Point.some h

/-- The net per-pair effect of one butterfly on a pair (P, Q) of coordinate
pairs with distinct x-coordinates: the chord-slope formulas for P + Q
(overwriting P) and P - Q (overwriting Q). -/
def pairButterfly (pr : (K × K) × (K × K)) : (K × K) × (K × K) :=
  let x₁ := pr.1.1
  let y₁ := pr.1.2
  let x₂ := pr.2.1
  let y₂ := pr.2.2
  let d := x₂ - x₁
  let sP := (y₂ - y₁) / d
  let sQ := -((y₂ + y₁) / d)
  let px := sP ^ 2 - (x₁ + x₂)
  let py := sP * (x₁ - px) - y₁
  let qx := sQ ^ 2 - (x₁ + x₂)
  let qy := sQ * (x₁ - qx) - y₁
  ((px, py), (qx, qy))

end SpecModel

section ScalarShadow

variable {F : Type} [CommRing F]

/-- The scalar-level shadow of one butterfly round: the same twist, pairing
and reassembly shape as fft_round, with the pair combination replaced by the
scalar sum and difference. -/
def scalarRound (is_first : Bool) (cs : List F) (g : F) (i : ℕ) : List F :=
  let k := 2 ^ i
  let half := k / 2
  let twisted := if is_first then cs else
    ((chunkExact k cs).map (fun ch => ch.take half ++
      distribute_powers (fun c gp => c * gp) (ch.drop half) g)).flatten
  let prs := ((chunkExact k twisted).map
    (fun ch => (ch.take half).zip (ch.drop half))).flatten
  ((chunkExact half (prs.map (fun pr => (pr.1 + pr.2, pr.1 - pr.2)))).map
    (fun l => l.map Prod.fst ++ l.map Prod.snd)).flatten

/-- The effect of one scalar butterfly round on a single block: twist the
upper half by powers of g unless this is the first round, then emit the
pairwise sums followed by the pairwise differences. -/
def chunkButterfly (g : F) (half : ℕ) (is_first : Bool) (ch : List F) : List F :=
  let upperT := if is_first then ch.drop half
    else distribute_powers (fun c gp => c * gp) (ch.drop half) g
  let prs := (ch.take half).zip upperT
  prs.map (fun pr => pr.1 + pr.2) ++ prs.map (fun pr => pr.1 - pr.2)

/-- The scalar-level shadow of the round loop of srs_to_lagrange. -/
def scalar_rounds (g : F) (n log : ℕ) (cs : List F) : List F :=
  (List.range' 1 log).foldl
    (fun acc i => scalarRound (decide (i = 1)) acc (g ^ (n >>> i)) i) cs

/-- The inverse discrete Fourier transform of an evaluation list, written
with the inverse domain generator gen and the normalization constant ninv:
coefficient j is ninv times the sum of the evaluations weighted by powers
of gen. -/
def ifft (ninv gen : F) (v : List F) : List F :=
  (List.range v.length).map (fun j =>
    ninv * ((List.range v.length).map (fun i => v.getD i 0 * gen ^ (i * j))).sum)

end ScalarShadow

section Msm

variable {K : Type} [Field K] [DecidableEq K]

/-- The multi-scalar combination of a list of affine coordinate pairs against
a list of scalar field elements, evaluated in the affine group model. -/
def msm (a : K) (r : ℕ) (v : List (ZMod r)) (pts : List (K × K)) : Option (K × K) :=
  (List.zipWith (fun c p => ecSmul a (ZMod.val c) (some p)) v pts).foldr (ecAdd a) none

end Msm

end SrsVerif

namespace SrsVerif

-- ### Theorems and supporting lemmas

theorem natRev_lt (L i : ℕ) : natRev L i < 2 ^ L := by
  induction L generalizing i with
  | zero => simp [natRev]
  | succ L ih =>
    have h2 : i % 2 ≤ 1 := Nat.lt_succ_iff.mp (Nat.mod_lt i (by norm_num))
    have := ih (i / 2)
    calc natRev (L + 1) i = i % 2 * 2 ^ L + natRev L (i / 2) := rfl
      _ ≤ 1 * 2 ^ L + natRev L (i / 2) := by
          exact Nat.add_le_add_right (Nat.mul_le_mul_right _ h2) _
      _ < 2 ^ L + 2 ^ L := by omega
      _ = 2 ^ (L + 1) := by ring

theorem natRev_split (a b i : ℕ) :
    natRev (a + b) i = natRev b i * 2 ^ a + natRev a (i / 2 ^ b) := by
  induction b generalizing i with
  | zero => simp [natRev]
  | succ b ih =>
    have : a + (b + 1) = (a + b) + 1 := by ring
    rw [this]
    show i % 2 * 2 ^ (a + b) + natRev (a + b) (i / 2) = _
    rw [ih (i / 2)]
    have hdiv : i / 2 / 2 ^ b = i / 2 ^ (b + 1) := by
      rw [Nat.div_div_eq_div_mul, pow_succ, mul_comm 2 (2 ^ b), mul_comm (2 ^ b) 2]
    rw [hdiv]
    show _ = (i % 2 * 2 ^ b + natRev b (i / 2)) * 2 ^ a + natRev a (i / 2 ^ (b + 1))
    rw [pow_add]
    ring

theorem natRev_mod (L i : ℕ) : natRev L (i % 2 ^ L) = natRev L i := by
  induction L generalizing i with
  | zero => simp [natRev]
  | succ L ih =>
    show i % 2 ^ (L + 1) % 2 * 2 ^ L + natRev L (i % 2 ^ (L + 1) / 2) =
      i % 2 * 2 ^ L + natRev L (i / 2)
    have h1 : i % 2 ^ (L + 1) % 2 = i % 2 := by
      rw [Nat.mod_mod_of_dvd _ (dvd_pow_self 2 (Nat.succ_ne_zero L))]
    have h2 : i % 2 ^ (L + 1) / 2 = i / 2 % 2 ^ L := by
      rw [pow_succ, mul_comm, Nat.mod_mul_right_div_self]
    rw [h1, h2, ih]

theorem natRev_mod_of_le {L c : ℕ} (h : L ≤ c) (i : ℕ) :
    natRev L (i % 2 ^ c) = natRev L i := by
  rw [← natRev_mod L (i % 2 ^ c), Nat.mod_mod_of_dvd _ (pow_dvd_pow 2 h), natRev_mod]

theorem natRev_involution (L i : ℕ) : natRev L (natRev L i) = i % 2 ^ L := by
  induction L generalizing i with
  | zero => simp [natRev, Nat.mod_one]
  | succ L ih =>
    have hsplit := natRev_split 1 L (natRev (L + 1) i)
    have hL1 : (1 : ℕ) + L = L + 1 := by ring
    rw [hL1] at hsplit
    have hval : natRev (L + 1) i = i % 2 * 2 ^ L + natRev L (i / 2) := rfl
    have hr : natRev L (i / 2) < 2 ^ L := natRev_lt L (i / 2)
    have hpos : 0 < 2 ^ L := Nat.pos_pow_of_pos L (by norm_num)
    have hhi : natRev (L + 1) i / 2 ^ L = i % 2 := by
      rw [hval, mul_comm (i % 2) (2 ^ L), Nat.mul_add_div hpos, Nat.div_eq_of_lt hr,
        add_zero]
    have hlowmod : natRev (L + 1) i % 2 ^ L = natRev L (i / 2) := by
      rw [hval, Nat.mul_add_mod', Nat.mod_eq_of_lt hr]
    have hlow : natRev L (natRev (L + 1) i) = i / 2 % 2 ^ L := by
      rw [← natRev_mod L (natRev (L + 1) i), hlowmod, ih]
    have hnat1 : ∀ j : ℕ, natRev 1 j = j % 2 := by
      intro j
      show j % 2 * 2 ^ 0 + natRev 0 (j / 2) = j % 2
      simp [natRev]
    rw [hsplit, hlow, hhi, hnat1]
    have key : i % (2 * 2 ^ L) = 2 * (i / 2 % 2 ^ L) + i % 2 := by
      conv_lhs => rw [← Nat.div_add_mod (i % (2 * 2 ^ L)) 2]
      rw [← Nat.mod_mul_right_div_self, Nat.mod_mod_of_dvd i ⟨2 ^ L, rfl⟩]
    have e8 : (2 : ℕ) ^ (L + 1) = 2 * 2 ^ L := by rw [pow_succ]; ring
    rw [e8, key]
    have h2 : i % 2 % 2 = i % 2 := Nat.mod_mod_of_dvd i (dvd_refl 2)
    omega

set_option maxRecDepth 4000

theorem byte_swap_table_eq_natRev : ∀ b < 256, BYTE_SWAP_TABLE.getD b 0 = natRev 8 b := by
  decide

theorem fromLeBytes_cons (b : ℕ) (l : List ℕ) :
    fromLeBytes (b :: l) = b + 256 * fromLeBytes l := rfl

theorem fromLeBytes_append_zeros (l : List ℕ) (k : ℕ) :
    fromLeBytes (l ++ List.replicate k 0) = fromLeBytes l := by
  induction l with
  | nil =>
    show fromLeBytes (List.replicate k 0) = 0
    induction k with
    | zero => rfl
    | succ k ihk =>
      show fromLeBytes (0 :: List.replicate k 0) = 0
      rw [fromLeBytes_cons, ihk]
  | cons b l ih =>
    show fromLeBytes (b :: (l ++ List.replicate k 0)) = fromLeBytes (b :: l)
    rw [fromLeBytes_cons, ih, fromLeBytes_cons]

theorem bytesRevSum (i : ℕ) : ∀ nb : ℕ,
    fromLeBytes ((List.range nb).map (fun m => natRev 8 (toLeByte i (nb - 1 - m)))) =
      natRev (8 * nb) i := by
  intro nb
  induction nb with
  | zero => simp [fromLeBytes, natRev]
  | succ nb ih =>
    rw [List.range_succ_eq_map, List.map_cons, List.map_map, fromLeBytes_cons]
    have htail : (List.range nb).map
        ((fun m => natRev 8 (toLeByte i (nb + 1 - 1 - m))) ∘ Nat.succ) =
        (List.range nb).map (fun m => natRev 8 (toLeByte i (nb - 1 - m))) := by
      apply List.map_congr_left
      intro m _
      show natRev 8 (toLeByte i (nb + 1 - 1 - (m + 1))) = natRev 8 (toLeByte i (nb - 1 - m))
      congr 2
      omega
    rw [htail, ih]
    have hsplit := natRev_split 8 (8 * nb) i
    have h8 : 8 + 8 * nb = 8 * (nb + 1) := by ring
    rw [h8] at hsplit
    have hhead : natRev 8 (toLeByte i (nb + 1 - 1 - 0)) = natRev 8 (i / 2 ^ (8 * nb)) := by
      show natRev 8 (i / 2 ^ (8 * nb) % 256) = natRev 8 (i / 2 ^ (8 * nb))
      have h256 : (256 : ℕ) = 2 ^ 8 := by norm_num
      rw [h256, natRev_mod]
    rw [hhead, hsplit]
    have h2256 : (2 : ℕ) ^ 8 = 256 := by norm_num
    rw [h2256]
    ring

theorem bit_reverse_eq_natRev (i L : ℕ) (hL : L ≤ 63) :
    bit_reverse i L = some (Except.ok (natRev L i)) := by
  have hnb : L / 8 < 8 := by omega
  have hlo : L % 8 < 8 := Nat.mod_lt _ (by norm_num)
  have hL8 : 8 * (L / 8) + L % 8 = L := by omega
  unfold bit_reverse
  rw [if_neg (by omega)]
  set nb := L / 8 with hnbdef
  set lo := L % 8 with hlodef
  set rawList : List ℕ :=
    BYTE_SWAP_TABLE.getD (toLeByte i nb) 0 ::
      (List.range nb).map (fun m => BYTE_SWAP_TABLE.getD (toLeByte i (nb - 1 - m)) 0)
    with hraw
  have hrawlen : rawList.length = 1 + nb := by
    rw [hraw]
    simp [List.length_map, List.length_range, Nat.add_comm]
  have hreslen : (resizeTo8 rawList).length = 8 := by
    unfold resizeTo8
    rw [List.length_append, List.length_replicate, List.length_take, hrawlen]
    omega
  rw [if_pos hreslen]
  have htake : rawList.take 8 = rawList := List.take_of_length_le (by omega)
  have hres : resizeTo8 rawList = rawList ++ List.replicate (8 - rawList.length) 0 := by
    unfold resizeTo8
    rw [htake]
  have hbyte : ∀ k : ℕ, BYTE_SWAP_TABLE.getD (toLeByte i k) 0 = natRev 8 (toLeByte i k) := by
    intro k
    exact byte_swap_table_eq_natRev _ (Nat.mod_lt _ (by norm_num))
  have hfl : fromLeBytes (resizeTo8 rawList) =
      natRev 8 (toLeByte i nb) + 256 * natRev (8 * nb) i := by
    rw [hres, fromLeBytes_append_zeros, hraw, fromLeBytes_cons, hbyte]
    congr 1
    have hmap : (List.range nb).map (fun m => BYTE_SWAP_TABLE.getD (toLeByte i (nb - 1 - m)) 0) =
        (List.range nb).map (fun m => natRev 8 (toLeByte i (nb - 1 - m))) := by
      apply List.map_congr_left
      intro m _
      exact hbyte (nb - 1 - m)
    rw [hmap, bytesRevSum]
  rw [hfl, Nat.shiftRight_eq_div_pow]
  have hsplit8 : natRev 8 (toLeByte i nb) =
      natRev lo (toLeByte i nb) * 2 ^ (8 - lo) + natRev (8 - lo) (toLeByte i nb / 2 ^ lo) := by
    have h := natRev_split (8 - lo) lo (toLeByte i nb)
    have he : 8 - lo + lo = 8 := by omega
    rw [he] at h
    exact h
  have h256split : (256 : ℕ) = 2 ^ (8 - lo) * 2 ^ lo := by
    rw [← pow_add]
    have he : 8 - lo + lo = 8 := by omega
    rw [he]
    norm_num
  have hlt : natRev (8 - lo) (toLeByte i nb / 2 ^ lo) < 2 ^ (8 - lo) := natRev_lt _ _
  have hdiv : (natRev 8 (toLeByte i nb) + 256 * natRev (8 * nb) i) / 2 ^ (8 - lo) =
      natRev lo (toLeByte i nb) + 2 ^ lo * natRev (8 * nb) i := by
    rw [hsplit8, h256split]
    have harr : natRev lo (toLeByte i nb) * 2 ^ (8 - lo) +
        natRev (8 - lo) (toLeByte i nb / 2 ^ lo) +
        2 ^ (8 - lo) * 2 ^ lo * natRev (8 * nb) i =
        2 ^ (8 - lo) * (natRev lo (toLeByte i nb) + 2 ^ lo * natRev (8 * nb) i) +
          natRev (8 - lo) (toLeByte i nb / 2 ^ lo) := by ring
    rw [harr, Nat.mul_add_div (Nat.pos_pow_of_pos _ (by norm_num)),
      Nat.div_eq_of_lt hlt, add_zero]
  have htgt := natRev_split lo (8 * nb) i
  have hlast : natRev lo (i / 2 ^ (8 * nb)) = natRev lo (toLeByte i nb) := by
    show _ = natRev lo (i / 2 ^ (8 * nb) % 256)
    have h256 : (256 : ℕ) = 2 ^ 8 := by norm_num
    rw [h256, natRev_mod_of_le (by omega)]
  have hL8' : lo + 8 * nb = L := by omega
  have hfin : natRev lo (toLeByte i nb) + 2 ^ lo * natRev (8 * nb) i = natRev L i := by
    rw [← hL8', htgt, hlast]
    ring
  rw [hdiv, hfin]

theorem natRev_testBit (L : ℕ) :
    ∀ i t : ℕ, t < L → (natRev L i).testBit t = i.testBit (L - 1 - t) := by
  induction L with
  | zero => intro i t ht; omega
  | succ L ih =>
    intro i t ht
    have hval : natRev (L + 1) i = i % 2 * 2 ^ L + natRev L (i / 2) := rfl
    have hr : natRev L (i / 2) < 2 ^ L := natRev_lt _ _
    by_cases htL : t < L
    · have hmod : natRev (L + 1) i % 2 ^ L = natRev L (i / 2) := by
        rw [hval, Nat.mul_add_mod', Nat.mod_eq_of_lt hr]
      have h1 : (natRev (L + 1) i).testBit t = (natRev (L + 1) i % 2 ^ L).testBit t := by
        rw [Nat.testBit_mod_two_pow]
        simp [htL]
      rw [h1, hmod, ih (i / 2) t htL, Nat.testBit_div_two]
      congr 1
      omega
    · have htL' : t = L := by omega
      rw [htL']
      have hdiv : natRev (L + 1) i / 2 ^ L = i % 2 := by
        rw [hval, mul_comm (i % 2) (2 ^ L),
          Nat.mul_add_div (Nat.pos_pow_of_pos _ (by norm_num)), Nat.div_eq_of_lt hr, add_zero]
      have hL0 : L + 1 - 1 - L = 0 := by omega
      rw [Nat.testBit_to_div_mod, hdiv, hL0, Nat.testBit_zero]
      have : i % 2 % 2 = i % 2 := Nat.mod_mod_of_dvd i (dvd_refl 2)
      rw [this]

/-- C4: for every log_n in [1,20] and index i below 2^log_n, bit_reverse
computes the exact bitwise reversal of the low log_n bits of i (bit t of the
result is bit log_n - 1 - t of i), and applying bit_reverse twice restores i. -/
theorem bit_reverse_involution (log_n i : ℕ) (h1 : 1 ≤ log_n) (h2 : log_n ≤ 20)
    (hi : i < 2 ^ log_n) :
    bit_reverse i log_n = some (Except.ok (natRev log_n i)) ∧
    (∀ t, t < log_n → (natRev log_n i).testBit t = i.testBit (log_n - 1 - t)) ∧
    bit_reverse (natRev log_n i) log_n = some (Except.ok i) := by
  refine ⟨bit_reverse_eq_natRev i log_n (by omega), natRev_testBit log_n i, ?_⟩
  rw [bit_reverse_eq_natRev (natRev log_n i) log_n (by omega), natRev_involution,
    Nat.mod_eq_of_lt hi]

/-- Witness for C4 at log_n = 3, i = 5. -/
theorem bit_reverse_involution_witness :
    (1 ≤ 3 ∧ 3 ≤ 20 ∧ 5 < 2 ^ 3) ∧
    (bit_reverse 5 3 = some (Except.ok (natRev 3 5)) ∧
      (∀ t, t < 3 → (natRev 3 5).testBit t = (5 : ℕ).testBit (3 - 1 - t)) ∧
      bit_reverse (natRev 3 5) 3 = some (Except.ok 5)) :=
  ⟨by decide, bit_reverse_involution 3 5 (by decide) (by decide) (by decide)⟩

/-- C5: bit_reverse with log_n = 3 maps 0,...,7 to 0,4,2,6,1,5,3,7. -/
theorem bit_reverse_known_vector :
    bit_reverse 0 3 = some (Except.ok 0) ∧ bit_reverse 1 3 = some (Except.ok 4) ∧
    bit_reverse 2 3 = some (Except.ok 2) ∧ bit_reverse 3 3 = some (Except.ok 6) ∧
    bit_reverse 4 3 = some (Except.ok 1) ∧ bit_reverse 5 3 = some (Except.ok 5) ∧
    bit_reverse 6 3 = some (Except.ok 3) ∧ bit_reverse 7 3 = some (Except.ok 7) := by
  decide

/-- C9: for log_n within the 64-bit native index width, bit_reverse always
returns Ok; the defensive InvalidParameters branch is unreachable. -/
theorem bit_reverse_no_invalid_parameters (log_n i : ℕ) (h : log_n ≤ 63) :
    ∃ v, bit_reverse i log_n = some (Except.ok v) :=
  ⟨natRev log_n i, bit_reverse_eq_natRev i log_n h⟩

/-- Witness for C9 at log_n = 10, i = 1000000. -/
theorem bit_reverse_no_invalid_parameters_witness :
    10 ≤ 63 ∧ ∃ v, bit_reverse 1000000 10 = some (Except.ok v) :=
  ⟨by decide, bit_reverse_no_invalid_parameters 10 1000000 (by decide)⟩

/-- C10: for log_n within the native index width, the value returned by
bit_reverse is below 2^log_n, and the result depends only on the low log_n
bits of the index. -/
theorem bit_reverse_range_and_low_bits (log_n i : ℕ) (h : log_n ≤ 63) :
    (∃ v, bit_reverse i log_n = some (Except.ok v) ∧ v < 2 ^ log_n) ∧
    bit_reverse i log_n = bit_reverse (i % 2 ^ log_n) log_n := by
  refine ⟨⟨natRev log_n i, bit_reverse_eq_natRev i log_n h, natRev_lt log_n i⟩, ?_⟩
  rw [bit_reverse_eq_natRev i log_n h, bit_reverse_eq_natRev (i % 2 ^ log_n) log_n h,
    natRev_mod]

/-- Witness for C10 at log_n = 5, i = 1000. -/
theorem bit_reverse_range_and_low_bits_witness :
    5 ≤ 63 ∧
    ((∃ v, bit_reverse 1000 5 = some (Except.ok v) ∧ v < 2 ^ 5) ∧
      bit_reverse 1000 5 = bit_reverse (1000 % 2 ^ 5) 5) :=
  ⟨by decide, bit_reverse_range_and_low_bits 5 1000 (by decide)⟩

section BasicClaims

variable {K : Type} [Field K] [DecidableEq K]

theorem pow_log2_self {m : ℕ} : Nat.log2 (2 ^ m) = m := by
  rw [Nat.log2_eq_log_two, Nat.log_pow (by norm_num)]

theorem log2Aux_eq : ∀ fuel n : ℕ, n ≤ fuel → log2Aux fuel n = Nat.log2 n := by
  intro fuel
  induction fuel with
  | zero =>
    intro n hn
    have : n = 0 := by omega
    subst this
    rw [Nat.log2]
    decide
  | succ fuel ih =>
    intro n hn
    show (if 2 ≤ n then log2Aux fuel (n / 2) + 1 else 0) = Nat.log2 n
    rw [Nat.log2]
    by_cases h2 : 2 ≤ n
    · rw [if_pos h2, if_pos h2, ih (n / 2) (by omega)]
    · rw [if_neg h2, if_neg h2]

theorem usize_ilog2_eq (n : ℕ) (h : n ≠ 0) : usize_ilog2 n = some (Nat.log2 n) := by
  unfold usize_ilog2
  rw [if_neg h, log2Aux_eq n n le_rfl]

theorem srs_to_lagrange_unfold {K : Type} [Field K] [DecidableEq K] (a : K) (r : ℕ)
    (sfInv : ZMod r → ZMod r) (domain : Option (ZMod r)) (points : List (K × K))
    (log : ℕ) (h : usize_ilog2 points.length = some log) :
    srs_to_lagrange a r sfInv domain points =
      (if points.length ≠ 2 ^ log then some (Except.error InterpolationError.SizeError)
       else if points.length = 1 then some (Except.ok points)
       else
         match collectOrdered points log (List.range points.length) with
         | none => none
         | some (Except.error e) => some (Except.error e)
         | some (Except.ok ordered) =>
           match domain with
           | none => some (Except.error InterpolationError.SizeError)
           | some genInv =>
             match srs_rounds a r genInv (2 ^ log) log ordered with
             | Except.error e => some (Except.error e)
             | Except.ok transformed =>
               if ((2 ^ log : ℕ) : ZMod r) = 0 then
                 some (Except.error (InterpolationError.FieldError
                   "Could not invert domain size"))
               else
                 some (Except.ok (transformed.map
                   (fun p => pointSmul a r (sfInv ((2 ^ log : ℕ) : ZMod r)) p)))) := by
  unfold srs_to_lagrange
  rw [h]

/-- C2 (behaviour of the code): on the empty input, srs_to_lagrange panics
inside usize::ilog2 instead of returning SizeError; on every nonempty input
whose length is not a power of two it returns SizeError, before any
computation on the points. -/
theorem srs_to_lagrange_size_error (a : K) (r : ℕ) (sfInv : ZMod r → ZMod r)
    (d : Option (ZMod r)) :
    srs_to_lagrange a r sfInv d ([] : List (K × K)) = none ∧
    ∀ ps : List (K × K), ps ≠ [] → (¬ ∃ m, ps.length = 2 ^ m) →
      srs_to_lagrange a r sfInv d ps = some (Except.error InterpolationError.SizeError) := by
  constructor
  · rfl
  · intro ps hne hnp
    have hlen : ps.length ≠ 0 := fun hc => hne (List.length_eq_zero.mp hc)
    have hchk : ps.length ≠ 2 ^ Nat.log2 ps.length := fun hc => hnp ⟨Nat.log2 ps.length, hc⟩
    rw [srs_to_lagrange_unfold a r sfInv d ps (Nat.log2 ps.length) (usize_ilog2_eq _ hlen),
      if_pos hchk]

/-- Witness for C2 at a length-3 input over the rationals with scalar field
order 5. -/
theorem srs_to_lagrange_size_error_witness :
    srs_to_lagrange (1 : ℚ) 5 id none ([] : List (ℚ × ℚ)) = none ∧
    srs_to_lagrange (1 : ℚ) 5 id none
        ([((0 : ℚ), (0 : ℚ)), (0, 0), (0, 0)]) =
      some (Except.error InterpolationError.SizeError) := by
  have h := srs_to_lagrange_size_error (1 : ℚ) 5 id none
  refine ⟨h.1, h.2 [((0 : ℚ), (0 : ℚ)), (0, 0), (0, 0)] (by simp) ?_⟩
  rintro ⟨m, hm⟩
  simp only [List.length_cons, List.length_nil] at hm
  have hm2 : m < 2 := by
    by_contra hge
    have : 2 ^ 2 ≤ 2 ^ m := Nat.pow_le_pow_right (by norm_num) (by omega)
    omega
  interval_cases m <;> omega

/-- C3: srs_to_lagrange is the identity on singleton inputs: it returns Ok
with the input unchanged. -/
theorem srs_to_lagrange_singleton (a : K) (r : ℕ) (sfInv : ZMod r → ZMod r)
    (d : Option (ZMod r)) (p : K × K) :
    srs_to_lagrange a r sfInv d [p] = some (Except.ok [p]) := rfl

theorem distribute_powers_aux_get {α F' : Type} [Monoid F'] (mulFn : α → F' → α) (g : F') :
    ∀ (l : List α) (pow : F') (j : ℕ),
      (distribute_powers_aux mulFn g pow l)[j]? =
        (l[j]?).map (fun c => mulFn c (pow * g ^ j)) := by
  intro l
  induction l with
  | nil => intro pow j; simp [distribute_powers_aux]
  | cons c rest ih =>
    intro pow j
    cases j with
    | zero => simp [distribute_powers_aux, mul_one]
    | succ j =>
      simp only [distribute_powers_aux, List.getElem?_cons_succ]
      rw [ih (pow * g) j]
      have hp : pow * g * g ^ j = pow * g ^ (j + 1) := by
        rw [mul_assoc, ← pow_succ']
      rw [hp]

/-- C6: distribute_powers leaves element 0 unchanged, multiplies element i
(for i at least 1) by the i-th power of g, and is the identity on inputs of
length 0 or 1. -/
theorem distribute_powers_spec {α F' : Type} [Monoid F'] (mulFn : α → F' → α)
    (coeffs : List α) (g : F') :
    (distribute_powers mulFn coeffs g)[0]? = coeffs[0]? ∧
    (∀ i, 1 ≤ i → (distribute_powers mulFn coeffs g)[i]? =
      (coeffs[i]?).map (fun c => mulFn c (g ^ i))) ∧
    (coeffs.length ≤ 1 → distribute_powers mulFn coeffs g = coeffs) := by
  refine ⟨?_, ?_, ?_⟩
  · cases coeffs with
    | nil => rfl
    | cons c rest => simp [distribute_powers]
  · intro i hi
    cases coeffs with
    | nil => simp [distribute_powers]
    | cons c rest =>
      cases i with
      | zero => omega
      | succ j =>
        simp only [distribute_powers, List.getElem?_cons_succ]
        rw [distribute_powers_aux_get]
        rw [← pow_succ']
  · intro hlen
    cases coeffs with
    | nil => rfl
    | cons c rest =>
      cases rest with
      | nil => rfl
      | cons c2 rest2 => simp at hlen

/-- Witness for C6 over the multiplicative monoid of natural numbers at
index 2 of a length-3 list. -/
theorem distribute_powers_spec_witness :
    (1 ≤ 2) ∧ (distribute_powers (fun (a c : ℕ) => a * c) [2, 3, 4] 5)[2]? =
      (([2, 3, 4] : List ℕ)[2]?).map (fun c => c * 5 ^ 2) :=
  ⟨by decide, (distribute_powers_spec (fun (a c : ℕ) => a * c) [2, 3, 4] 5).2.1 2 (by decide)⟩

end BasicClaims

section RoundClaims

variable {K : Type} [Field K] [DecidableEq K]

theorem fwdPass_acc (l : List ((K × K) × (K × K))) :
    ∀ acc : K, (fwdPass acc l).1 = acc * (l.map (fun pr => pr.2.1 - pr.1.1)).prod := by
  induction l with
  | nil => intro acc; simp [fwdPass]
  | cons pr rest ih =>
    intro acc
    obtain ⟨⟨x₁, y₁⟩, ⟨x₂, y₂⟩⟩ := pr
    show (fwdPass (acc * (x₂ - x₁)) rest).1 = _
    rw [ih (acc * (x₂ - x₁))]
    simp only [List.map_cons, List.prod_cons]
    ring

/-- C7: one butterfly round fails with FieldError exactly when the single
accumulated product of the per-pair differences x2 - x1 (taken after any
twist) vanishes, which happens exactly when some pair shares an
x-coordinate; FieldError is moreover the only error a round can produce,
and an erroneous round yields no point list. -/
theorem fft_round_field_error_iff (a : K) (r : ℕ) (b : Bool) (points : List (K × K))
    (g : ZMod r) (i : ℕ) :
    ((∃ s, fft_round a r b points g i =
        Except.error (InterpolationError.FieldError s)) ↔
      ((pairUp (2 ^ i) (2 ^ i / 2)
          (if b then points else twistPoints a r (2 ^ i) (2 ^ i / 2) points g)).map
        (fun pr => pr.2.1 - pr.1.1)).prod = 0) ∧
    (((pairUp (2 ^ i) (2 ^ i / 2)
          (if b then points else twistPoints a r (2 ^ i) (2 ^ i / 2) points g)).map
        (fun pr => pr.2.1 - pr.1.1)).prod = 0 ↔
      ∃ pr ∈ pairUp (2 ^ i) (2 ^ i / 2)
          (if b then points else twistPoints a r (2 ^ i) (2 ^ i / 2) points g),
        pr.1.1 = pr.2.1) ∧
    (∀ e, fft_round a r b points g i = Except.error e →
      ∃ s, e = InterpolationError.FieldError s) := by
  set prs := pairUp (2 ^ i) (2 ^ i / 2)
    (if b then points else twistPoints a r (2 ^ i) (2 ^ i / 2) points g) with hprs
  have hacc : (fwdPass (1 : K) prs).1 = (prs.map (fun pr => pr.2.1 - pr.1.1)).prod := by
    rw [fwdPass_acc, one_mul]
  have hunfold : fft_round a r b points g i =
      if (fwdPass (1 : K) prs).1 = 0 then
        Except.error (InterpolationError.FieldError
          "Could not invert batch inversion accumulator")
      else
        Except.ok (((chunkExact (2 ^ i / 2)
          (bwdPass (fwdPass (1 : K) prs).1⁻¹
            ((prs.map Prod.fst).zip (fwdPass (1 : K) prs).2)).2).map
          (fun pss => pss.map Prod.fst ++ pss.map Prod.snd)).flatten) := by
    rw [fft_round, hprs]
  refine ⟨?_, ?_, ?_⟩
  · constructor
    · rintro ⟨s, hs⟩
      rw [hunfold] at hs
      by_cases hz : (fwdPass (1 : K) prs).1 = 0
      · rw [← hacc]; exact hz
      · rw [if_neg hz] at hs; exact absurd hs (by simp)
    · intro hz
      rw [hunfold, if_pos (by rw [hacc]; exact hz)]
      exact ⟨_, rfl⟩
  · rw [List.prod_eq_zero_iff]
    constructor
    · intro hmem
      obtain ⟨pr, hpr, hval⟩ := List.mem_map.mp hmem
      exact ⟨pr, hpr, by
        have := sub_eq_zero.mp hval
        exact this.symm⟩
    · rintro ⟨pr, hpr, hxy⟩
      exact List.mem_map.mpr ⟨pr, hpr, by rw [hxy, sub_self]⟩
  · intro e he
    rw [hunfold] at he
    by_cases hz : (fwdPass (1 : K) prs).1 = 0
    · rw [if_pos hz] at he
      exact ⟨_, (Except.error.injEq _ _).mp he.symm⟩
    · rw [if_neg hz] at he
      exact absurd he (by simp)

attribute [local semireducible] Rat.mul Rat.add Rat.sub Rat.inv in
/-- Witness for C7: a pair sharing an x-coordinate makes the round fail, and
the error is a FieldError. -/
theorem fft_round_field_error_iff_witness :
    (fft_round (1 : ℚ) 3 true [((1 : ℚ), (1 : ℚ)), (1, 1)] (2 : ZMod 3) 1 =
      Except.error (InterpolationError.FieldError
        "Could not invert batch inversion accumulator")) ∧
    ∃ s, InterpolationError.FieldError "Could not invert batch inversion accumulator" =
      InterpolationError.FieldError s :=
  ⟨by decide,
    (fft_round_field_error_iff (1 : ℚ) 3 true [((1 : ℚ), (1 : ℚ)), (1, 1)]
      (2 : ZMod 3) 1).2.2 _ (by decide)⟩

theorem srs_rounds_zero (a : K) (r : ℕ) (genInv : ZMod r) (n : ℕ)
    (pts : List (K × K)) : srs_rounds a r genInv n 0 pts = Except.ok pts := rfl

theorem srs_rounds_succ (a : K) (r : ℕ) (genInv : ZMod r) (n m : ℕ)
    (pts : List (K × K)) :
    srs_rounds a r genInv n (m + 1) pts =
      (srs_rounds a r genInv n m pts).bind
        (fun l => fft_round a r (decide (m + 1 = 1)) l (genInv ^ (n >>> (m + 1))) (m + 1)) := by
  show (List.range' 1 (m + 1)).foldlM _ pts = _
  rw [List.range'_concat]
  rw [List.foldlM_append]
  have h1m : 1 + 1 * m = m + 1 := by omega
  rw [h1m]
  simp only [List.foldlM_cons, List.foldlM_nil, bind_pure]
  rfl

/-- C8: srs_to_lagrange on an input of length 2^m (m at least 1) runs the
round pipeline for rounds 1..m on the bit-reversed copy and rescales; the
pipeline applies no round at count 0 and unrolls one butterfly round per
count in ascending order, passing round i the (n >> i)-th power of the
domain's inverse generator and flagging exactly round 1 as first. -/
theorem srs_to_lagrange_round_schedule (a : K) (r : ℕ) (sfInv : ZMod r → ZMod r)
    (genInv : ZMod r) :
    (∀ (n : ℕ) (pts : List (K × K)), srs_rounds a r genInv n 0 pts = Except.ok pts) ∧
    (∀ (n m : ℕ) (pts : List (K × K)), srs_rounds a r genInv n (m + 1) pts =
      (srs_rounds a r genInv n m pts).bind
        (fun l => fft_round a r (decide (m + 1 = 1)) l
          (genInv ^ (n >>> (m + 1))) (m + 1))) ∧
    (∀ (ps : List (K × K)) (m : ℕ), 1 ≤ m → ps.length = 2 ^ m →
      srs_to_lagrange a r sfInv (some genInv) ps =
        match collectOrdered ps m (List.range (2 ^ m)) with
        | none => none
        | some (Except.error e) => some (Except.error e)
        | some (Except.ok ordered) =>
          match srs_rounds a r genInv (2 ^ m) m ordered with
          | Except.error e => some (Except.error e)
          | Except.ok transformed =>
            if ((2 ^ m : ℕ) : ZMod r) = 0 then
              some (Except.error (InterpolationError.FieldError
                "Could not invert domain size"))
            else
              some (Except.ok (transformed.map
                (fun p => pointSmul a r (sfInv ((2 ^ m : ℕ) : ZMod r)) p)))) := by
  refine ⟨fun n pts => srs_rounds_zero a r genInv n pts,
    fun n m pts => srs_rounds_succ a r genInv n m pts, ?_⟩
  intro ps m hm hlen
  have hlen0 : ps.length ≠ 0 := by rw [hlen]; positivity
  have hilog : usize_ilog2 ps.length = some m := by
    rw [usize_ilog2_eq ps.length hlen0, hlen, pow_log2_self]
  have h1 : (2 : ℕ) ^ m ≠ 1 := by
    have : (2 : ℕ) ^ 1 ≤ 2 ^ m := Nat.pow_le_pow_right (by norm_num) hm
    omega
  rw [srs_to_lagrange_unfold a r sfInv (some genInv) ps m hilog, hlen]
  rw [if_neg (by intro hc; exact hc rfl), if_neg h1]

attribute [local semireducible] Rat.mul Rat.add Rat.sub Rat.inv in
/-- Witness for C8: the pipeline equation applied to a concrete length-2
input over the rationals with scalar field order 3, evaluated to the
resulting point list. -/
theorem srs_to_lagrange_round_schedule_witness :
    (1 ≤ 1) ∧ (([((1 : ℚ), (1 : ℚ)), (2, 2)] : List (ℚ × ℚ)).length = 2 ^ 1) ∧
    srs_to_lagrange (1 : ℚ) 3 id (some (2 : ZMod 3)) [((1 : ℚ), (1 : ℚ)), (2, 2)] =
      some (Except.ok [((233 / 16 : ℚ), (-3573 / 64 : ℚ)),
        (2473 / 784, -64149 / 21952)]) := by
  refine ⟨by decide, by decide, ?_⟩
  rw [(srs_to_lagrange_round_schedule (1 : ℚ) 3 id (2 : ZMod 3)).2.2
    [((1 : ℚ), (1 : ℚ)), (2, 2)] 1 (by decide) (by decide)]
  decide

end RoundClaims

section CurveBridge

open WeierstrassCurve.Affine

variable {K : Type} [Field K] [DecidableEq K]

theorem Wcurve_equation_iff (a b x y : K) :
    (Wcurve a b).Equation x y ↔ onCurve a b (x, y) := by
  rw [WeierstrassCurve.Affine.equation_iff]
  unfold Wcurve onCurve
  constructor <;> intro h <;> linear_combination h

theorem Wcurve_negY (a b x y : K) : (Wcurve a b).negY x y = -y := by
  unfold Wcurve
  simp [WeierstrassCurve.Affine.negY]

theorem Wcurve_nonsingular {a b : K} (hΔ : (Wcurve a b).Δ ≠ 0) {x y : K}
    (h : onCurve a b (x, y)) : (Wcurve a b).Nonsingular x y :=
  (Wcurve a b).nonsingular_of_Δ_ne_zero ((Wcurve_equation_iff a b x y).mpr h) hΔ

theorem PRep_right_unique {a b : K} {p : Option (K × K)}
    {P Q : (Wcurve a b).Point} (h1 : PRep a b p P) (h2 : PRep a b p Q) : P = Q := by
  cases p with
  | none => rw [show P = 0 from h1, show Q = 0 from h2]
  | some xy =>
    obtain ⟨hA, rfl⟩ := h1
    obtain ⟨hB, rfl⟩ := h2
    rfl

theorem PRep_left_unique {a b : K} {p q : Option (K × K)}
    {P : (Wcurve a b).Point} (h1 : PRep a b p P) (h2 : PRep a b q P) : p = q := by
  cases p with
  | none =>
    cases q with
    | none => rfl
    | some xy =>
      obtain ⟨hB, hq⟩ := h2
      rw [show P = 0 from h1] at hq
      exact absurd hq.symm (WeierstrassCurve.Affine.Point.some_ne_zero hB)
  | some xy =>
    cases q with
    | none =>
      obtain ⟨hA, hp⟩ := h1
      rw [show P = 0 from h2] at hp
      exact absurd hp.symm (WeierstrassCurve.Affine.Point.some_ne_zero hA)
    | some xy2 =>
      obtain ⟨x, y⟩ := xy
      obtain ⟨x2, y2⟩ := xy2
      obtain ⟨hA, hp⟩ := h1
      obtain ⟨hB, hq⟩ := h2
      have := hp.symm.trans hq
      rw [WeierstrassCurve.Affine.Point.some.injEq] at this
      have hx3 : x = x2 := this.1
      have hy3 : y = y2 := this.2
      rw [hx3, hy3]

theorem point_some_congr {a b : K} {x₁ y₁ x₂ y₂ : K} (hx : x₁ = x₂) (hy : y₁ = y₂)
    (h₁ : (Wcurve a b).Nonsingular x₁ y₁) (h₂ : (Wcurve a b).Nonsingular x₂ y₂) :
    WeierstrassCurve.Affine.Point.some h₁ = WeierstrassCurve.Affine.Point.some h₂ := by
  subst hx
  subst hy
  rfl

theorem ecAdd_rep {a b : K} {p q : Option (K × K)} {P Q : (Wcurve a b).Point}
    (hp : PRep a b p P) (hq : PRep a b q Q) : PRep a b (ecAdd a p q) (P + Q) := by
  cases p with
  | none =>
    rw [show P = 0 from hp, zero_add]
    exact hq
  | some xy1 =>
    cases q with
    | none =>
      rw [show Q = 0 from hq, add_zero]
      exact hp
    | some xy2 =>
      obtain ⟨x₁, y₁⟩ := xy1
      obtain ⟨x₂, y₂⟩ := xy2
      obtain ⟨h₁, rfl⟩ := hp
      obtain ⟨h₂, rfl⟩ := hq
      by_cases hx : x₁ = x₂
      · by_cases hy : y₁ = -y₂
        · have hYeq : y₁ = (Wcurve a b).negY x₂ y₂ := by rw [Wcurve_negY]; exact hy
          rw [WeierstrassCurve.Affine.Point.add_of_Y_eq hx hYeq]
          show PRep a b (ecAdd a (some (x₁, y₁)) (some (x₂, y₂))) 0
          have hval : ecAdd a (some (x₁, y₁)) (some (x₂, y₂)) = none := by
            simp only [ecAdd]
            rw [if_pos hx, if_pos hy]
          rw [hval]
          rfl
        · have hYne : y₁ ≠ (Wcurve a b).negY x₂ y₂ := by rw [Wcurve_negY]; exact hy
          rw [WeierstrassCurve.Affine.Point.add_of_Y_ne hYne]
          have hval : ecAdd a (some (x₁, y₁)) (some (x₂, y₂)) =
              some (((3 * x₁ ^ 2 + a) / (2 * y₁)) ^ 2 - x₁ - x₂,
                ((3 * x₁ ^ 2 + a) / (2 * y₁)) *
                  (x₁ - (((3 * x₁ ^ 2 + a) / (2 * y₁)) ^ 2 - x₁ - x₂)) - y₁) := by
            simp only [ecAdd]
            rw [if_pos hx, if_neg hy]
          rw [hval]
          have hslope : (Wcurve a b).slope x₁ x₂ y₁ y₂ = (3 * x₁ ^ 2 + a) / (2 * y₁) := by
            rw [WeierstrassCurve.Affine.slope_of_Y_ne hx hYne, Wcurve_negY]
            unfold Wcurve
            norm_num
            ring_nf
          have hX : ((3 * x₁ ^ 2 + a) / (2 * y₁)) ^ 2 - x₁ - x₂ =
              (Wcurve a b).addX x₁ x₂ ((Wcurve a b).slope x₁ x₂ y₁ y₂) := by
            rw [hslope, WeierstrassCurve.Affine.addX]
            unfold Wcurve
            ring
          have hY : ((3 * x₁ ^ 2 + a) / (2 * y₁)) *
              (x₁ - (((3 * x₁ ^ 2 + a) / (2 * y₁)) ^ 2 - x₁ - x₂)) - y₁ =
              (Wcurve a b).addY x₁ x₂ y₁ ((Wcurve a b).slope x₁ x₂ y₁ y₂) := by
            rw [hslope, WeierstrassCurve.Affine.addY, WeierstrassCurve.Affine.negAddY,
              WeierstrassCurve.Affine.negY, WeierstrassCurve.Affine.addX]
            unfold Wcurve
            ring
          rw [hY, hX]
          exact ⟨WeierstrassCurve.Affine.nonsingular_add h₁ h₂ (fun _ => hYne), rfl⟩
      · rw [WeierstrassCurve.Affine.Point.add_of_X_ne hx]
        have hd : x₂ - x₁ ≠ 0 := fun hc => hx (by linear_combination -hc)
        have hval : ecAdd a (some (x₁, y₁)) (some (x₂, y₂)) =
            some (((y₂ - y₁) / (x₂ - x₁)) ^ 2 - x₁ - x₂,
              ((y₂ - y₁) / (x₂ - x₁)) *
                (x₁ - (((y₂ - y₁) / (x₂ - x₁)) ^ 2 - x₁ - x₂)) - y₁) := by
          simp only [ecAdd]
          rw [if_neg hx]
        rw [hval]
        have hslope : (Wcurve a b).slope x₁ x₂ y₁ y₂ = (y₂ - y₁) / (x₂ - x₁) := by
          rw [WeierstrassCurve.Affine.slope_of_X_ne hx, ← neg_div_neg_eq]
          ring_nf
        have hX : ((y₂ - y₁) / (x₂ - x₁)) ^ 2 - x₁ - x₂ =
            (Wcurve a b).addX x₁ x₂ ((Wcurve a b).slope x₁ x₂ y₁ y₂) := by
          rw [hslope, WeierstrassCurve.Affine.addX]
          unfold Wcurve
          ring
        have hY : ((y₂ - y₁) / (x₂ - x₁)) *
            (x₁ - (((y₂ - y₁) / (x₂ - x₁)) ^ 2 - x₁ - x₂)) - y₁ =
            (Wcurve a b).addY x₁ x₂ y₁ ((Wcurve a b).slope x₁ x₂ y₁ y₂) := by
          rw [hslope, WeierstrassCurve.Affine.addY, WeierstrassCurve.Affine.negAddY,
            WeierstrassCurve.Affine.negY, WeierstrassCurve.Affine.addX]
          unfold Wcurve
          ring
        rw [hY, hX]
        exact ⟨WeierstrassCurve.Affine.nonsingular_add h₁ h₂ (fun h => (hx h).elim), rfl⟩

theorem ecNeg_rep {a b : K} {p : Option (K × K)} {P : (Wcurve a b).Point}
    (hp : PRep a b p P) : PRep a b (ecNeg p) (-P) := by
  cases p with
  | none =>
    rw [show P = 0 from hp, neg_zero]
    rfl
  | some xy =>
    obtain ⟨x, y⟩ := xy
    obtain ⟨h, rfl⟩ := hp
    rw [WeierstrassCurve.Affine.Point.neg_some]
    have hnegY : (Wcurve a b).negY x y = -y := Wcurve_negY a b x y
    have hns : (Wcurve a b).Nonsingular x (-y) := by
      have hn := WeierstrassCurve.Affine.nonsingular_neg h
      rwa [hnegY] at hn
    exact ⟨hns, point_some_congr rfl hnegY (WeierstrassCurve.Affine.nonsingular_neg h) hns⟩

theorem ecSmul_rep {a b : K} {p : Option (K × K)} {P : (Wcurve a b).Point}
    (hp : PRep a b p P) : ∀ n : ℕ, PRep a b (ecSmul a n p) (n • P) := by
  intro n
  induction n with
  | zero =>
    rw [zero_nsmul]
    rfl
  | succ n ih =>
    show PRep a b (ecAdd a p (ecSmul a n p)) ((n + 1) • P)
    rw [succ_nsmul, add_comm (n • P) P]
    exact ecAdd_rep hp ih

end CurveBridge

section BatchInversion

variable {K : Type} [Field K] [DecidableEq K]

theorem bwd_fwd_unwind :
    ∀ (prs : List ((K × K) × (K × K))) (c : K), c ≠ 0 →
    (prs.map (fun pr => pr.2.1 - pr.1.1)).prod ≠ 0 →
    (bwdPass ((fwdPass c prs).1)⁻¹ ((prs.map Prod.fst).zip (fwdPass c prs).2)).2
      = prs.map pairButterfly ∧
    (bwdPass ((fwdPass c prs).1)⁻¹ ((prs.map Prod.fst).zip (fwdPass c prs).2)).1 = c⁻¹ := by
  intro prs
  induction prs with
  | nil => intro c hc hprod; exact ⟨rfl, rfl⟩
  | cons pr rest ih =>
    intro c hc hprod
    obtain ⟨⟨x₁, y₁⟩, ⟨x₂, y₂⟩⟩ := pr
    rw [List.map_cons, List.prod_cons] at hprod
    have hd : x₂ - x₁ ≠ 0 := fun hz => hprod (by rw [hz, zero_mul])
    have hrest : (rest.map (fun pr => pr.2.1 - pr.1.1)).prod ≠ 0 :=
      fun hz => hprod (by rw [hz, mul_zero])
    have hcd : c * (x₂ - x₁) ≠ 0 := mul_ne_zero hc hd
    have hfwd1 : (fwdPass c (((x₁, y₁), (x₂, y₂)) :: rest)).1 =
        (fwdPass (c * (x₂ - x₁)) rest).1 := rfl
    have hfwd2 : (fwdPass c (((x₁, y₁), (x₂, y₂)) :: rest)).2 =
        (x₁ + x₂, (y₂ - y₁) * c, x₂ - x₁, (y₂ + y₁) * (-c)) ::
          (fwdPass (c * (x₂ - x₁)) rest).2 := rfl
    have ihr := ih (c * (x₂ - x₁)) hcd hrest
    rw [hfwd1, hfwd2]
    have hzip : ((((x₁, y₁), (x₂, y₂)) :: rest).map Prod.fst).zip
        ((x₁ + x₂, (y₂ - y₁) * c, x₂ - x₁, (y₂ + y₁) * (-c)) ::
          (fwdPass (c * (x₂ - x₁)) rest).2) =
        ((x₁, y₁), (x₁ + x₂, (y₂ - y₁) * c, x₂ - x₁, (y₂ + y₁) * (-c))) ::
          ((rest.map Prod.fst).zip (fwdPass (c * (x₂ - x₁)) rest).2) := rfl
    rw [hzip]
    simp only [bwdPass]
    rw [ihr.1, ihr.2]
    constructor
    · congr 1
      · unfold pairButterfly
        simp only [Prod.mk.injEq]
        refine ⟨⟨?_, ?_⟩, ?_, ?_⟩ <;> field_simp <;> ring
    · field_simp
      ring

theorem fft_round_ok (a : K) (r : ℕ) (isF : Bool) (pts : List (K × K)) (g : ZMod r)
    (i : ℕ)
    (hprod : ((pairUp (2 ^ i) (2 ^ i / 2)
        (if isF then pts else twistPoints a r (2 ^ i) (2 ^ i / 2) pts g)).map
      (fun pr => pr.2.1 - pr.1.1)).prod ≠ 0) :
    fft_round a r isF pts g i = Except.ok
      (((chunkExact (2 ^ i / 2)
          ((pairUp (2 ^ i) (2 ^ i / 2)
            (if isF then pts else twistPoints a r (2 ^ i) (2 ^ i / 2) pts g)).map
            pairButterfly)).map
        (fun prs => prs.map Prod.fst ++ prs.map Prod.snd)).flatten) := by
  set prs := pairUp (2 ^ i) (2 ^ i / 2)
    (if isF then pts else twistPoints a r (2 ^ i) (2 ^ i / 2) pts g) with hprs
  have hfwd : (fwdPass (1 : K) prs).1 = (prs.map (fun pr => pr.2.1 - pr.1.1)).prod := by
    rw [fwdPass_acc, one_mul]
  have hne : (fwdPass (1 : K) prs).1 ≠ 0 := by rw [hfwd]; exact hprod
  have hunfold : fft_round a r isF pts g i =
      if (fwdPass (1 : K) prs).1 = 0 then
        Except.error (InterpolationError.FieldError
          "Could not invert batch inversion accumulator")
      else
        Except.ok (((chunkExact (2 ^ i / 2)
          (bwdPass ((fwdPass (1 : K) prs).1)⁻¹
            ((prs.map Prod.fst).zip (fwdPass (1 : K) prs).2)).2).map
          (fun pss => pss.map Prod.fst ++ pss.map Prod.snd)).flatten) := by
    rw [fft_round, hprs]
  rw [hunfold, if_neg hne]
  rw [(bwd_fwd_unwind prs 1 one_ne_zero hprod).1]

end BatchInversion

section ListInfra

variable {α β : Type}

theorem chunkAux_cons_succ (k f : ℕ) (x : α) (xs : List α) :
    chunkAux k (f + 1) (x :: xs) = (x :: xs).take k :: chunkAux k f ((x :: xs).drop k) := rfl

theorem chunkAux_fuel (k : ℕ) (hk : 0 < k) :
    ∀ (n f1 f2 : ℕ) (l : List α), l.length ≤ n → l.length ≤ f1 → l.length ≤ f2 →
      chunkAux k f1 l = chunkAux k f2 l := by
  intro n
  induction n with
  | zero =>
    intro f1 f2 l h0 _ _
    have : l = [] := List.length_eq_zero.mp (by omega)
    subst this
    cases f1 <;> cases f2 <;> rfl
  | succ n ih =>
    intro f1 f2 l hn h1 h2
    cases l with
    | nil => cases f1 <;> cases f2 <;> rfl
    | cons x xs =>
      have hney : (x :: xs).length = xs.length + 1 := rfl
      cases f1 with
      | zero => simp at h1
      | succ f1 =>
        cases f2 with
        | zero => simp at h2
        | succ f2 =>
          rw [chunkAux_cons_succ, chunkAux_cons_succ]
          congr 1
          apply ih
          · rw [List.length_drop]
            simp only [List.length_cons] at hn ⊢
            omega
          · rw [List.length_drop]
            simp only [List.length_cons] at h1 ⊢
            omega
          · rw [List.length_drop]
            simp only [List.length_cons] at h2 ⊢
            omega

theorem chunkExact_nil (k : ℕ) : chunkExact k ([] : List α) = [] := by
  unfold chunkExact
  split <;> rfl

theorem chunkExact_zero (l : List α) : chunkExact 0 l = [] := by
  unfold chunkExact
  simp

theorem chunkExact_cons_of {k : ℕ} (hk : 0 < k) {l : List α} (hl : l ≠ []) :
    chunkExact k l = l.take k :: chunkExact k (l.drop k) := by
  have hlen : 0 < l.length := List.length_pos.mpr hl
  unfold chunkExact
  rw [if_neg (by omega), if_neg (by omega)]
  cases l with
  | nil => exact absurd rfl hl
  | cons x xs =>
    rw [show (x :: xs).length = xs.length + 1 from rfl, chunkAux_cons_succ]
    congr 1
    apply chunkAux_fuel k hk ((x :: xs).drop k).length
    · exact le_rfl
    · rw [List.length_drop]
      simp only [List.length_cons]
      omega
    · exact le_rfl

theorem chunkExact_exact {k : ℕ} (hk : 0 < k) {l : List α} (hlen : l.length = k) :
    chunkExact k l = [l] := by
  have hl : l ≠ [] := by
    intro hc
    rw [hc] at hlen
    simp at hlen
    omega
  rw [chunkExact_cons_of hk hl, List.take_of_length_le (by omega),
    List.drop_eq_nil_of_le (by omega), chunkExact_nil]

theorem chunkExact_flatten (k : ℕ) (hk : 0 < k) :
    ∀ (n : ℕ) (l : List α), l.length ≤ n → (chunkExact k l).flatten = l := by
  intro n
  induction n with
  | zero =>
    intro l h0
    have : l = [] := List.length_eq_zero.mp (by omega)
    subst this
    rw [chunkExact_nil]
    rfl
  | succ n ih =>
    intro l hn
    by_cases hl : l = []
    · subst hl
      rw [chunkExact_nil]
      rfl
    · rw [chunkExact_cons_of hk hl, List.flatten_cons,
        ih (l.drop k) (by rw [List.length_drop]; have := List.length_pos.mpr hl; omega),
        List.take_append_drop]

theorem chunkExact_append {k : ℕ} (hk : 0 < k) :
    ∀ (n : ℕ) (l1 l2 : List α), l1.length ≤ n → k ∣ l1.length →
      chunkExact k (l1 ++ l2) = chunkExact k l1 ++ chunkExact k l2 := by
  intro n
  induction n with
  | zero =>
    intro l1 l2 h0 _
    have : l1 = [] := List.length_eq_zero.mp (by omega)
    subst this
    rw [chunkExact_nil]
    rfl
  | succ n ih =>
    intro l1 l2 hn hdvd
    by_cases hl : l1 = []
    · subst hl
      rw [chunkExact_nil]
      rfl
    · have hklen : k ≤ l1.length := Nat.le_of_dvd (List.length_pos.mpr hl) hdvd
      by_cases hl2 : l2 = []
      · subst hl2
        rw [List.append_nil, chunkExact_nil, List.append_nil]
      · have hne : l1 ++ l2 ≠ [] := fun hc => hl (List.append_eq_nil.mp hc).1
        rw [chunkExact_cons_of hk hne, chunkExact_cons_of hk hl]
        rw [List.take_append_of_le_length hklen, List.drop_append_of_le_length hklen]
        rw [List.cons_append]
        congr 1
        apply ih
        · rw [List.length_drop]
          have := List.length_pos.mpr hl
          omega
        · rw [List.length_drop]
          exact (Nat.dvd_sub' hdvd dvd_rfl)

theorem chunkExact_rel {R : α → β → Prop} {k : ℕ} (hk : 0 < k) :
    ∀ (n : ℕ) (l : List α) (l' : List β), l.length ≤ n → List.Forall₂ R l l' →
      List.Forall₂ (List.Forall₂ R) (chunkExact k l) (chunkExact k l') := by
  intro n
  induction n with
  | zero =>
    intro l l' h0 hrel
    have : l = [] := List.length_eq_zero.mp (by omega)
    subst this
    have : l' = [] := List.forall₂_nil_left_iff.mp hrel
    subst this
    rw [chunkExact_nil, chunkExact_nil]
    exact List.Forall₂.nil
  | succ n ih =>
    intro l l' hn hrel
    by_cases hl : l = []
    · subst hl
      have : l' = [] := List.forall₂_nil_left_iff.mp hrel
      subst this
      rw [chunkExact_nil, chunkExact_nil]
      exact List.Forall₂.nil
    · have hl' : l' ≠ [] := by
        intro hc
        subst hc
        exact hl (List.forall₂_nil_right_iff.mp hrel)
      rw [chunkExact_cons_of hk hl, chunkExact_cons_of hk hl']
      exact List.Forall₂.cons (List.forall₂_take k hrel)
        (ih (l.drop k) (l'.drop k)
          (by rw [List.length_drop]; have := List.length_pos.mpr hl; omega)
          (List.forall₂_drop k hrel))

theorem forall₂_zip_pair {γ δ : Type} {R : α → β → Prop} {S : γ → δ → Prop} :
    ∀ {la : List α} {lb : List β}, List.Forall₂ R la lb →
      ∀ {lc : List γ} {ld : List δ}, List.Forall₂ S lc ld →
      List.Forall₂ (fun p q => R p.1 q.1 ∧ S p.2 q.2) (la.zip lc) (lb.zip ld) := by
  intro la lb hab
  induction hab with
  | nil => intro lc ld _; exact List.Forall₂.nil
  | cons hR hrest ih =>
    intro lc ld hcd
    cases hcd with
    | nil => exact List.Forall₂.nil
    | cons hS hrest2 => exact List.Forall₂.cons ⟨hR, hS⟩ (ih hrest2)

theorem distribute_powers_aux_rel {γ F' : Type} [Mul F'] {R : α → γ → Prop}
    (mulP : α → F' → α) (mulS : γ → F' → γ) (g : F') (nz : F' → Prop)
    (hpres : ∀ x y pw, nz pw → R x y → R (mulP x pw) (mulS y pw))
    (hnzmul : ∀ pw, nz pw → nz (pw * g)) :
    ∀ {l : List α} {l' : List γ}, List.Forall₂ R l l' → ∀ pw, nz pw →
      List.Forall₂ R (distribute_powers_aux mulP g pw l)
        (distribute_powers_aux mulS g pw l') := by
  intro l l' hrel
  induction hrel with
  | nil => intro pw _; exact List.Forall₂.nil
  | cons hR hrest ih =>
    intro pw hpw
    exact List.Forall₂.cons (hpres _ _ _ hpw hR) (ih (pw * g) (hnzmul pw hpw))

theorem distribute_powers_rel {γ F' : Type} [Mul F'] {R : α → γ → Prop}
    (mulP : α → F' → α) (mulS : γ → F' → γ) (g : F') (nz : F' → Prop)
    (hpres : ∀ x y pw, nz pw → R x y → R (mulP x pw) (mulS y pw))
    (hnzmul : ∀ pw, nz pw → nz (pw * g)) (hg : nz g)
    {l : List α} {l' : List γ} (hrel : List.Forall₂ R l l') :
    List.Forall₂ R (distribute_powers mulP l g) (distribute_powers mulS l' g) := by
  cases hrel with
  | nil => exact List.Forall₂.nil
  | cons hR hrest =>
    exact List.Forall₂.cons hR
      (distribute_powers_aux_rel mulP mulS g nz hpres hnzmul hrest g hg)

theorem forall₂_map_mem {γ δ : Type} {P : α → β → Prop} {Q : γ → δ → Prop}
    {f : α → γ} {g : β → δ} {cond : α → Prop} :
    ∀ {l : List α} {l' : List β}, List.Forall₂ P l l' → (∀ x ∈ l, cond x) →
      (∀ x y, P x y → cond x → Q (f x) (g y)) →
      List.Forall₂ Q (l.map f) (l'.map g) := by
  intro l l' hrel
  induction hrel with
  | nil => intro _ _; exact List.Forall₂.nil
  | cons hP hrest ih =>
    intro hcond htrans
    exact List.Forall₂.cons (htrans _ _ hP (hcond _ (List.mem_cons_self _ _)))
      (ih (fun x hx => hcond x (List.mem_cons_of_mem _ hx)) htrans)

end ListInfra

section RoundTransfer

variable {K : Type} [Field K] [DecidableEq K]

theorem scalarRound_def {F : Type} [CommRing F] (isF : Bool) (cs : List F) (g : F)
    (i : ℕ) :
    scalarRound isF cs g i =
      ((chunkExact (2 ^ i / 2)
        ((((chunkExact (2 ^ i)
            (if isF then cs else
              ((chunkExact (2 ^ i) cs).map (fun ch => ch.take (2 ^ i / 2) ++
                distribute_powers (fun c gp => c * gp) (ch.drop (2 ^ i / 2)) g)).flatten)).map
          (fun ch => (ch.take (2 ^ i / 2)).zip (ch.drop (2 ^ i / 2)))).flatten).map
          (fun pr => (pr.1 + pr.2, pr.1 - pr.2)))).map
        (fun l => l.map Prod.fst ++ l.map Prod.snd)).flatten := rfl

theorem round_transfer (a : K) (r : ℕ) (Rel : (K × K) → ZMod r → Prop)
    (hsm : ∀ (p : K × K) (c gp : ZMod r), gp ≠ 0 → Rel p c →
      Rel (pointSmul a r gp p) (c * gp))
    (hbf : ∀ p1 c1 p2 c2, Rel p1 c1 → Rel p2 c2 → p2.1 - p1.1 ≠ 0 →
      Rel (pairButterfly (p1, p2)).1 (c1 + c2) ∧
      Rel (pairButterfly (p1, p2)).2 (c1 - c2))
    (hnzmul : ∀ x y : ZMod r, x ≠ 0 → y ≠ 0 → x * y ≠ 0)
    (isF : Bool) (g : ZMod r) (hg : g ≠ 0) (i : ℕ)
    (pts : List (K × K)) (cs : List (ZMod r)) (hrel : List.Forall₂ Rel pts cs)
    (hprod : ((pairUp (2 ^ i) (2 ^ i / 2)
        (if isF then pts else twistPoints a r (2 ^ i) (2 ^ i / 2) pts g)).map
      (fun pr => pr.2.1 - pr.1.1)).prod ≠ 0) :
    fft_round a r isF pts g i = Except.ok
      (((chunkExact (2 ^ i / 2)
          ((pairUp (2 ^ i) (2 ^ i / 2)
            (if isF then pts else twistPoints a r (2 ^ i) (2 ^ i / 2) pts g)).map
            pairButterfly)).map
        (fun prs => prs.map Prod.fst ++ prs.map Prod.snd)).flatten) ∧
    List.Forall₂ Rel
      (((chunkExact (2 ^ i / 2)
          ((pairUp (2 ^ i) (2 ^ i / 2)
            (if isF then pts else twistPoints a r (2 ^ i) (2 ^ i / 2) pts g)).map
            pairButterfly)).map
        (fun prs => prs.map Prod.fst ++ prs.map Prod.snd)).flatten)
      (scalarRound isF cs g i) := by
  have hk : 0 < 2 ^ i := Nat.pos_pow_of_pos i (by norm_num)
  refine ⟨fft_round_ok a r isF pts g i hprod, ?_⟩
  rw [scalarRound_def]
  set TP := if isF then pts else twistPoints a r (2 ^ i) (2 ^ i / 2) pts g with hTP
  set TS := if isF then cs else
    ((chunkExact (2 ^ i) cs).map (fun ch => ch.take (2 ^ i / 2) ++
      distribute_powers (fun c gp => c * gp) (ch.drop (2 ^ i / 2)) g)).flatten with hTS
  have htwist : List.Forall₂ Rel TP TS := by
    rw [hTP, hTS]
    cases isF with
    | true => exact hrel
    | false =>
      show List.Forall₂ Rel (twistPoints a r (2 ^ i) (2 ^ i / 2) pts g) _
      unfold twistPoints
      apply List.rel_flatten
      apply forall₂_map_mem (chunkExact_rel hk pts.length pts cs le_rfl hrel)
        (fun _ _ => trivial)
      intro ch ch' hch _
      apply List.rel_append (List.forall₂_take _ hch)
      exact distribute_powers_rel _ _ g (fun x => x ≠ 0)
        (fun x y pw hpw hxy => hsm x y pw hpw hxy)
        (fun pw hpw => hnzmul pw g hpw hg) hg (List.forall₂_drop _ hch)
  have hpairs : List.Forall₂ (fun pq cc => Rel pq.1 cc.1 ∧ Rel pq.2 cc.2)
      (pairUp (2 ^ i) (2 ^ i / 2) TP)
      (((chunkExact (2 ^ i) TS).map
        (fun ch => (ch.take (2 ^ i / 2)).zip (ch.drop (2 ^ i / 2)))).flatten) := by
    unfold pairUp
    apply List.rel_flatten
    apply forall₂_map_mem (chunkExact_rel hk TP.length TP TS le_rfl htwist)
      (fun _ _ => trivial)
    intro ch ch' hch _
    exact forall₂_zip_pair (List.forall₂_take _ hch) (List.forall₂_drop _ hch)
  have hdx : ∀ pr ∈ pairUp (2 ^ i) (2 ^ i / 2) TP, pr.2.1 - pr.1.1 ≠ 0 := by
    intro pr hpr hz
    exact hprod (List.prod_eq_zero (List.mem_map.mpr ⟨pr, hpr, hz⟩))
  have hbfly : List.Forall₂ (fun pq cc => Rel pq.1 cc.1 ∧ Rel pq.2 cc.2)
      ((pairUp (2 ^ i) (2 ^ i / 2) TP).map pairButterfly)
      ((((chunkExact (2 ^ i) TS).map
        (fun ch => (ch.take (2 ^ i / 2)).zip (ch.drop (2 ^ i / 2)))).flatten).map
        (fun pr => (pr.1 + pr.2, pr.1 - pr.2))) := by
    apply forall₂_map_mem hpairs hdx
    intro pq cc hpc hcond
    have := hbf pq.1 cc.1 pq.2 cc.2 hpc.1 hpc.2 hcond
    exact ⟨this.1, this.2⟩
  apply List.rel_flatten
  have hhalf : 0 < 2 ^ i / 2 ∨ 2 ^ i / 2 = 0 := by omega
  rcases hhalf with hhalf | hhalf
  · apply forall₂_map_mem (chunkExact_rel hhalf _ _ _ le_rfl hbfly) (fun _ _ => trivial)
    intro chp chc hch _
    apply List.rel_append
    · exact forall₂_map_mem hch (fun _ _ => trivial) (fun x y hxy _ => hxy.1)
    · exact forall₂_map_mem hch (fun _ _ => trivial) (fun x y hxy _ => hxy.2)
  · rw [hhalf, chunkExact_zero, chunkExact_zero]
    exact List.Forall₂.nil

end RoundTransfer

section ScalarFFTInfra

variable {F : Type} [CommRing F]

theorem foldl_ext_mem {α β : Type} (f g : β → α → β) :
    ∀ (l : List α) (b : β), (∀ a ∈ l, ∀ acc, f acc a = g acc a) →
      l.foldl f b = l.foldl g b := by
  intro l
  induction l with
  | nil => intro b _; rfl
  | cons x xs ih =>
    intro b h
    rw [List.foldl_cons, List.foldl_cons, h x (List.mem_cons_self x xs)]
    exact ih _ (fun c hc acc => h c (List.mem_cons_of_mem x hc) acc)

theorem distribute_powers_aux_length {α F' : Type} [Mul F'] (mulFn : α → F' → α)
    (g : F') : ∀ (l : List α) (pw : F'),
      (distribute_powers_aux mulFn g pw l).length = l.length := by
  intro l
  induction l with
  | nil => intro pw; rfl
  | cons c rest ih =>
    intro pw
    show (distribute_powers_aux mulFn g (pw * g) rest).length + 1 = rest.length + 1
    rw [ih]

theorem distribute_powers_length {α F' : Type} [Mul F'] (mulFn : α → F' → α)
    (l : List α) (g : F') : (distribute_powers mulFn l g).length = l.length := by
  cases l with
  | nil => rfl
  | cons c rest =>
    show (distribute_powers_aux mulFn g g rest).length + 1 = rest.length + 1
    rw [distribute_powers_aux_length]

theorem chunkExact_mem_length {α : Type} {k : ℕ} (hk : 0 < k) :
    ∀ (n : ℕ) (l : List α), l.length ≤ n → k ∣ l.length →
      ∀ ch ∈ chunkExact k l, ch.length = k := by
  intro n
  induction n with
  | zero =>
    intro l h0 _ ch hch
    have : l = [] := List.length_eq_zero.mp (by omega)
    subst this
    rw [chunkExact_nil] at hch
    simp at hch
  | succ n ih =>
    intro l hn hdvd ch hch
    by_cases hl : l = []
    · subst hl
      rw [chunkExact_nil] at hch
      simp at hch
    · have hpos := List.length_pos.mpr hl
      have hkle : k ≤ l.length := Nat.le_of_dvd hpos hdvd
      rw [chunkExact_cons_of hk hl] at hch
      rcases List.mem_cons.mp hch with h | h
      · subst h
        rw [List.length_take]
        omega
      · exact ih (l.drop k) (by rw [List.length_drop]; omega)
          (by rw [List.length_drop]; exact Nat.dvd_sub' hdvd dvd_rfl) ch h

theorem chunkExact_regroup {α : Type} {k : ℕ} (hk : 0 < k) :
    ∀ (chs : List (List α)), (∀ ch ∈ chs, ch.length = k) →
      chunkExact k chs.flatten = chs := by
  intro chs
  induction chs with
  | nil =>
    intro _
    rw [List.flatten_nil, chunkExact_nil]
  | cons ch rest ih =>
    intro h
    have hch : ch.length = k := h ch (List.mem_cons_self _ _)
    have hne : (ch :: rest).flatten ≠ [] := by
      rw [List.flatten_cons]
      intro hc
      have : ch = [] := (List.append_eq_nil.mp hc).1
      rw [this] at hch
      simp at hch
      omega
    rw [chunkExact_cons_of hk hne, List.flatten_cons]
    congr 1
    · rw [← hch, List.take_left]
    · have hdrop : (ch ++ rest.flatten).drop k = rest.flatten := by
        rw [← hch, List.drop_left]
      rw [hdrop]
      exact ih (fun c hc => h c (List.mem_cons_of_mem _ hc))

theorem pow_half_eq {i : ℕ} (hi : 1 ≤ i) : 2 ^ i / 2 = 2 ^ (i - 1) := by
  have h : 2 ^ i = 2 * 2 ^ (i - 1) := by
    rw [← pow_succ']
    congr 1
    omega
  omega

theorem pow_two_halves {i : ℕ} (hi : 1 ≤ i) : 2 ^ i = 2 ^ i / 2 + 2 ^ i / 2 := by
  rw [pow_half_eq hi]
  have h : 2 ^ i = 2 * 2 ^ (i - 1) := by
    rw [← pow_succ']
    congr 1
    omega
  omega

theorem chunkButterfly_length (g : F) (half : ℕ) (isF : Bool) (ch : List F)
    (hlen : ch.length = half + half) :
    (chunkButterfly g half isF ch).length = ch.length := by
  unfold chunkButterfly
  have hupper : (if isF then ch.drop half
      else distribute_powers (fun c gp => c * gp) (ch.drop half) g).length = half := by
    cases isF with
    | true =>
      show (ch.drop half).length = half
      rw [List.length_drop]
      omega
    | false =>
      show (distribute_powers (fun c gp => c * gp) (ch.drop half) g).length = half
      rw [distribute_powers_length, List.length_drop]
      omega
  rw [List.length_append, List.length_map, List.length_map, List.length_zip,
    List.length_take, hupper, hlen]
  omega

end ScalarFFTInfra

section ScalarFFT

variable {F : Type} [CommRing F]

theorem flatten_map_length {α β : Type} (f : α → List β) (len : α → ℕ) :
    ∀ chs : List α, (∀ ch ∈ chs, (f ch).length = len ch) →
      (chs.map f).flatten.length = (chs.map len).sum := by
  intro chs
  induction chs with
  | nil => intro _; rfl
  | cons ch rest ih =>
    intro h
    rw [List.map_cons, List.flatten_cons, List.length_append,
      h ch (List.mem_cons_self _ _), List.map_cons, List.sum_cons,
      ih (fun c hc => h c (List.mem_cons_of_mem _ hc))]

theorem scalarRound_chunks (isF : Bool) (g : F) {i : ℕ} (hi : 1 ≤ i)
    (l : List F) (hdvd : 2 ^ i ∣ l.length) :
    scalarRound isF l g i =
      ((chunkExact (2 ^ i) l).map (chunkButterfly g (2 ^ i / 2) isF)).flatten := by
  have hk : 0 < 2 ^ i := Nat.pos_pow_of_pos i (by norm_num)
  have hhalf : 0 < 2 ^ i / 2 := by
    rw [pow_half_eq hi]
    exact Nat.pos_pow_of_pos _ (by norm_num)
  have hkk : 2 ^ i = 2 ^ i / 2 + 2 ^ i / 2 := pow_two_halves hi
  have hchlen : ∀ ch ∈ chunkExact (2 ^ i) l, ch.length = 2 ^ i :=
    chunkExact_mem_length hk l.length l le_rfl hdvd
  rw [scalarRound_def]
  have htw : (if isF then l else
      ((chunkExact (2 ^ i) l).map (fun ch => ch.take (2 ^ i / 2) ++
        distribute_powers (fun c gp => c * gp) (ch.drop (2 ^ i / 2)) g)).flatten) =
    ((chunkExact (2 ^ i) l).map (fun ch => ch.take (2 ^ i / 2) ++
      (if isF then ch.drop (2 ^ i / 2) else
        distribute_powers (fun c gp => c * gp) (ch.drop (2 ^ i / 2)) g))).flatten := by
    cases isF with
    | false => rfl
    | true =>
      show l = _
      have hmap : ((chunkExact (2 ^ i) l).map (fun ch => ch.take (2 ^ i / 2) ++
          (if true then ch.drop (2 ^ i / 2) else
            distribute_powers (fun c gp => c * gp) (ch.drop (2 ^ i / 2)) g))) =
          (chunkExact (2 ^ i) l).map (fun ch => ch) := by
        apply List.map_congr_left
        intro ch _
        exact List.take_append_drop _ ch
      rw [hmap, List.map_id', chunkExact_flatten (2 ^ i) hk l.length l le_rfl]
  rw [htw]
  have hupperlen : ∀ ch ∈ chunkExact (2 ^ i) l,
      (if isF then ch.drop (2 ^ i / 2) else
        distribute_powers (fun c gp => c * gp) (ch.drop (2 ^ i / 2)) g).length =
        2 ^ i / 2 := by
    intro ch hch
    cases isF with
    | true =>
      show (ch.drop (2 ^ i / 2)).length = 2 ^ i / 2
      rw [List.length_drop, hchlen ch hch]
      omega
    | false =>
      show (distribute_powers (fun c gp => c * gp) (ch.drop (2 ^ i / 2)) g).length =
        2 ^ i / 2
      rw [distribute_powers_length, List.length_drop, hchlen ch hch]
      omega
  have htwlen : ∀ ch2 ∈ (chunkExact (2 ^ i) l).map (fun ch => ch.take (2 ^ i / 2) ++
      (if isF then ch.drop (2 ^ i / 2) else
        distribute_powers (fun c gp => c * gp) (ch.drop (2 ^ i / 2)) g)),
      ch2.length = 2 ^ i := by
    intro ch2 hch2
    obtain ⟨ch, hch, rfl⟩ := List.mem_map.mp hch2
    rw [List.length_append, List.length_take, hchlen ch hch, hupperlen ch hch]
    omega
  rw [chunkExact_regroup hk _ htwlen, List.map_map, List.map_flatten, List.map_map]
  have hpairlen : ∀ ch2 ∈ (chunkExact (2 ^ i) l).map
      ((List.map fun pr => (pr.1 + pr.2, pr.1 - pr.2)) ∘
        (fun ch => (ch.take (2 ^ i / 2)).zip (ch.drop (2 ^ i / 2))) ∘
        fun ch => ch.take (2 ^ i / 2) ++
          (if isF then ch.drop (2 ^ i / 2) else
            distribute_powers (fun c gp => c * gp) (ch.drop (2 ^ i / 2)) g)),
      ch2.length = 2 ^ i / 2 := by
    intro ch2 hch2
    obtain ⟨ch, hch, rfl⟩ := List.mem_map.mp hch2
    show ((List.map fun pr => (pr.1 + pr.2, pr.1 - pr.2))
      (((ch.take (2 ^ i / 2) ++ _).take (2 ^ i / 2)).zip
        ((ch.take (2 ^ i / 2) ++ _).drop (2 ^ i / 2)))).length = 2 ^ i / 2
    rw [List.length_map, List.length_zip, List.length_take, List.length_append,
      List.length_take, List.length_drop, List.length_append, List.length_take,
      hchlen ch hch, hupperlen ch hch]
    omega
  rw [chunkExact_regroup hhalf _ hpairlen, List.map_map]
  congr 1
  apply List.map_congr_left
  intro ch hch
  show (fun l => l.map Prod.fst ++ l.map Prod.snd)
      ((((ch.take (2 ^ i / 2) ++
        (if isF then ch.drop (2 ^ i / 2) else
          distribute_powers (fun c gp => c * gp) (ch.drop (2 ^ i / 2)) g)).take
          (2 ^ i / 2)).zip
        ((ch.take (2 ^ i / 2) ++
          (if isF then ch.drop (2 ^ i / 2) else
            distribute_powers (fun c gp => c * gp) (ch.drop (2 ^ i / 2)) g)).drop
          (2 ^ i / 2))).map (fun pr => (pr.1 + pr.2, pr.1 - pr.2))) =
    chunkButterfly g (2 ^ i / 2) isF ch
  have hlow : (ch.take (2 ^ i / 2)).length = 2 ^ i / 2 := by
    rw [List.length_take, hchlen ch hch]
    omega
  rw [List.take_left' hlow, List.drop_left' hlow]
  simp only [chunkButterfly, List.map_map]
  rfl

theorem scalarRound_single (isF : Bool) (g : F) {i : ℕ} (hi : 1 ≤ i)
    (l : List F) (hlen : l.length = 2 ^ i) :
    scalarRound isF l g i = chunkButterfly g (2 ^ i / 2) isF l := by
  have hk : 0 < 2 ^ i := Nat.pos_pow_of_pos i (by norm_num)
  rw [scalarRound_chunks isF g hi l (by rw [hlen]), chunkExact_exact hk hlen,
    List.map_cons, List.map_nil, List.flatten_cons, List.flatten_nil,
    List.append_nil]

theorem scalarRound_append (isF : Bool) (g : F) {i : ℕ} (hi : 1 ≤ i)
    (l1 l2 : List F) (h1 : 2 ^ i ∣ l1.length) (h2 : 2 ^ i ∣ l2.length) :
    scalarRound isF (l1 ++ l2) g i =
      scalarRound isF l1 g i ++ scalarRound isF l2 g i := by
  have hk : 0 < 2 ^ i := Nat.pos_pow_of_pos i (by norm_num)
  rw [scalarRound_chunks isF g hi l1 h1, scalarRound_chunks isF g hi l2 h2,
    scalarRound_chunks isF g hi (l1 ++ l2)
      (by rw [List.length_append]; exact Nat.dvd_add h1 h2),
    chunkExact_append hk l1.length l1 l2 le_rfl h1, List.map_append,
    List.flatten_append]

theorem scalarRound_length (isF : Bool) (g : F) {i : ℕ} (hi : 1 ≤ i)
    (l : List F) (hdvd : 2 ^ i ∣ l.length) :
    (scalarRound isF l g i).length = l.length := by
  have hk : 0 < 2 ^ i := Nat.pos_pow_of_pos i (by norm_num)
  have hkk : 2 ^ i = 2 ^ i / 2 + 2 ^ i / 2 := pow_two_halves hi
  have hchlen : ∀ ch ∈ chunkExact (2 ^ i) l, ch.length = 2 ^ i :=
    chunkExact_mem_length hk l.length l le_rfl hdvd
  rw [scalarRound_chunks isF g hi l hdvd,
    flatten_map_length (chunkButterfly g (2 ^ i / 2) isF) List.length
      (chunkExact (2 ^ i) l)
      (fun ch hch => chunkButterfly_length g (2 ^ i / 2) isF ch
        (by rw [hchlen ch hch]; omega))]
  have hflat := chunkExact_flatten (2 ^ i) hk l.length l le_rfl
  calc ((chunkExact (2 ^ i) l).map List.length).sum
      = (chunkExact (2 ^ i) l).flatten.length := (List.length_flatten _).symm
    _ = l.length := by rw [hflat]

theorem scalar_rounds_zero (g : F) (n : ℕ) (cs : List F) :
    scalar_rounds g n 0 cs = cs := rfl

theorem scalar_rounds_succ (g : F) (n m : ℕ) (cs : List F) :
    scalar_rounds g n (m + 1) cs =
      scalarRound (decide (m + 1 = 1)) (scalar_rounds g n m cs)
        (g ^ (n >>> (m + 1))) (m + 1) := by
  unfold scalar_rounds
  rw [List.range'_concat, List.foldl_append]
  have h1m : 1 + 1 * m = m + 1 := by omega
  rw [h1m, List.foldl_cons, List.foldl_nil]

theorem scalar_rounds_length (g : F) (n : ℕ) :
    ∀ (m : ℕ) (cs : List F), 2 ^ m ∣ cs.length →
      (scalar_rounds g n m cs).length = cs.length := by
  intro m
  induction m with
  | zero => intro cs _; rfl
  | succ m ih =>
    intro cs hdvd
    have hdvd' : 2 ^ m ∣ cs.length := dvd_trans (pow_dvd_pow 2 (by omega)) hdvd
    rw [scalar_rounds_succ,
      scalarRound_length _ _ (by omega) _ (by rw [ih cs hdvd']; exact hdvd),
      ih cs hdvd']

theorem scalar_rounds_append (g : F) (n : ℕ) :
    ∀ (m : ℕ) (l1 l2 : List F), 2 ^ m ∣ l1.length → 2 ^ m ∣ l2.length →
      scalar_rounds g n m (l1 ++ l2) =
        scalar_rounds g n m l1 ++ scalar_rounds g n m l2 := by
  intro m
  induction m with
  | zero => intro l1 l2 _ _; rfl
  | succ m ih =>
    intro l1 l2 h1 h2
    have h1' : 2 ^ m ∣ l1.length := dvd_trans (pow_dvd_pow 2 (by omega)) h1
    have h2' : 2 ^ m ∣ l2.length := dvd_trans (pow_dvd_pow 2 (by omega)) h2
    rw [scalar_rounds_succ, scalar_rounds_succ, scalar_rounds_succ,
      ih l1 l2 h1' h2',
      scalarRound_append _ _ (by omega) _ _
        (by rw [scalar_rounds_length g n m l1 h1']; exact h1)
        (by rw [scalar_rounds_length g n m l2 h2']; exact h2)]

theorem scalar_rounds_sq (g : F) (m : ℕ) (cs : List F) :
    scalar_rounds g (2 ^ (m + 1)) m cs = scalar_rounds (g ^ 2) (2 ^ m) m cs := by
  unfold scalar_rounds
  apply foldl_ext_mem
  intro i hi acc
  have hmem : 1 ≤ i ∧ i < 1 + m := List.mem_range'_1.mp hi
  have h1 : 2 ^ (m + 1) >>> i = 2 ^ (m + 1 - i) := by
    rw [Nat.shiftRight_eq_div_pow, Nat.pow_div (by omega) (by norm_num)]
  have h2 : 2 ^ m >>> i = 2 ^ (m - i) := by
    rw [Nat.shiftRight_eq_div_pow, Nat.pow_div (by omega) (by norm_num)]
  rw [h1, h2, ← pow_mul]
  congr 2
  have hsplit : m + 1 - i = (m - i) + 1 := by omega
  rw [hsplit, pow_succ']

theorem distribute_powers_map_range (g : F) (N : ℕ) (h : ℕ → F) :
    distribute_powers (fun c gp => c * gp) ((List.range N).map h) g =
      (List.range N).map (fun u => h u * g ^ u) := by
  apply List.ext_getElem?
  intro j
  rcases Nat.eq_zero_or_pos j with hj0 | hjpos
  · subst hj0
    rw [(distribute_powers_spec (fun c gp => c * gp) _ g).1]
    cases N with
    | zero => rfl
    | succ n =>
      simp [List.getElem?_map, List.getElem?_range]
  · rw [(distribute_powers_spec (fun c gp => c * gp) _ g).2.1 j hjpos]
    by_cases hj : j < N
    · simp [List.getElem?_map, List.getElem?_range, hj]
    · have hnone : (List.range N)[j]? = none :=
        List.getElem?_eq_none (by rw [List.length_range]; omega)
      simp [List.getElem?_map, hnone]

theorem sum_range_even_odd (h : ℕ → F) :
    ∀ N : ℕ, (∑ u ∈ Finset.range (2 * N), h u) =
      (∑ u ∈ Finset.range N, h (2 * u)) + ∑ u ∈ Finset.range N, h (2 * u + 1) := by
  intro N
  induction N with
  | zero => simp
  | succ n ih =>
    have h2 : 2 * (n + 1) = 2 * n + 1 + 1 := by omega
    rw [h2, Finset.sum_range_succ, Finset.sum_range_succ, Finset.sum_range_succ,
      Finset.sum_range_succ, ih]
    ring

theorem natRev_double :
    ∀ m i : ℕ, i < 2 ^ m → natRev (m + 1) i = 2 * natRev m i := by
  intro m
  induction m with
  | zero =>
    intro i hi
    interval_cases i
    rfl
  | succ m ih =>
    intro i hi
    show i % 2 * 2 ^ (m + 1) + natRev (m + 1) (i / 2) =
      2 * (i % 2 * 2 ^ m + natRev m (i / 2))
    rw [ih (i / 2) (by omega), pow_succ']
    ring

theorem natRev_double_add_one :
    ∀ m i : ℕ, i < 2 ^ m → natRev (m + 1) (2 ^ m + i) = 2 * natRev m i + 1 := by
  intro m
  induction m with
  | zero =>
    intro i hi
    interval_cases i
    rfl
  | succ m ih =>
    intro i hi
    have hps : (2 : ℕ) ^ (m + 1) = 2 * 2 ^ m := by rw [pow_succ']
    have hmod : (2 ^ (m + 1) + i) % 2 = i % 2 := by omega
    have hdiv : (2 ^ (m + 1) + i) / 2 = 2 ^ m + i / 2 := by omega
    show (2 ^ (m + 1) + i) % 2 * 2 ^ (m + 1) +
        natRev (m + 1) ((2 ^ (m + 1) + i) / 2) =
      2 * (i % 2 * 2 ^ m + natRev m (i / 2)) + 1
    rw [hmod, hdiv, ih (i / 2) (by omega), hps]
    ring

theorem chunkButterfly_maps (g : F) (N : ℕ) (eF oF : ℕ → F) :
    chunkButterfly g N false
        ((List.range N).map eF ++ (List.range N).map oF) =
      (List.range N).map (fun t => eF t + oF t * g ^ t) ++
      (List.range N).map (fun t => eF t - oF t * g ^ t) := by
  have hlenE : ((List.range N).map eF).length = N := by
    rw [List.length_map, List.length_range]
  simp only [chunkButterfly, Bool.false_eq_true, if_false]
  rw [List.take_left' hlenE, List.drop_left' hlenE, distribute_powers_map_range,
    List.zip_map', List.map_map, List.map_map]
  rfl

theorem chunkButterfly_first_irrel (g : F) {m : ℕ} (l : List F)
    (hlen : l.length = 2 ^ (m + 1)) :
    chunkButterfly g (2 ^ m) (decide (m + 1 = 1)) l =
      chunkButterfly g (2 ^ m) false l := by
  by_cases hm0 : m = 0
  · subst hm0
    have hd : decide (0 + 1 = 1) = true := by decide
    rw [hd]
    simp only [chunkButterfly, eq_self_iff_true, if_true, Bool.false_eq_true, if_false]
    have hdroplen : (l.drop (2 ^ 0)).length ≤ 1 := by
      rw [List.length_drop, hlen]
      norm_num
    rw [(distribute_powers_spec (fun c gp => c * gp) (l.drop (2 ^ 0)) g).2.2 hdroplen]
  · have hne : m + 1 ≠ 1 := by omega
    rw [decide_eq_false hne]

theorem scalar_fft :
    ∀ (m : ℕ) (g : F) (f : ℕ → F), g ^ (2 ^ m) = 1 →
      (1 ≤ m → g ^ (2 ^ (m - 1)) = -1) →
      scalar_rounds g (2 ^ m) m
          ((List.range (2 ^ m)).map (fun i => f (natRev m i))) =
        (List.range (2 ^ m)).map
          (fun t => ∑ u ∈ Finset.range (2 ^ m), g ^ (t * u) * f u) := by
  intro m
  induction m with
  | zero =>
    intro g f _ _
    simp only [pow_zero]
    rw [scalar_rounds_zero]
    simp [natRev, Finset.sum_range_one]
  | succ m ih =>
    intro g f hg1 hgm
    have hpow : (2 : ℕ) ^ (m + 1) = 2 ^ m + 2 ^ m := by
      rw [pow_succ']
      omega
    have hgm' : g ^ (2 ^ m) = -1 := by
      have := hgm (by omega)
      simpa using this
    have hg2 : (g ^ 2) ^ (2 ^ m) = 1 := by
      rw [← pow_mul, ← pow_succ', hg1]
    have hgm2 : 1 ≤ m → (g ^ 2) ^ (2 ^ (m - 1)) = -1 := by
      intro hm
      rw [← pow_mul]
      have h21 : 2 * 2 ^ (m - 1) = 2 ^ m := by
        rw [← pow_succ']
        congr 1
        omega
      rw [h21, hgm']
    have hsplit : (List.range (2 ^ (m + 1))).map (fun i => f (natRev (m + 1) i)) =
        (List.range (2 ^ m)).map (fun i => f (2 * natRev m i)) ++
        (List.range (2 ^ m)).map (fun i => f (2 * natRev m i + 1)) := by
      rw [hpow, List.range_add, List.map_append, List.map_map]
      congr 1
      · apply List.map_congr_left
        intro i hi
        rw [natRev_double m i (List.mem_range.mp hi)]
      · apply List.map_congr_left
        intro i hi
        show f (natRev (m + 1) (2 ^ m + i)) = f (2 * natRev m i + 1)
        rw [natRev_double_add_one m i (List.mem_range.mp hi)]
    rw [hsplit, scalar_rounds_succ, scalar_rounds_sq,
      scalar_rounds_append (g ^ 2) (2 ^ m) m _ _ (by simp) (by simp),
      ih (g ^ 2) (fun u => f (2 * u)) hg2 hgm2,
      ih (g ^ 2) (fun u => f (2 * u + 1)) hg2 hgm2]
    have hshift : 2 ^ (m + 1) >>> (m + 1) = 1 := by
      rw [Nat.shiftRight_eq_div_pow]
      exact Nat.div_self (Nat.pos_pow_of_pos _ (by norm_num))
    rw [hshift, pow_one,
      scalarRound_single _ g (by omega) _
        (by rw [List.length_append, List.length_map, List.length_map,
          List.length_range, hpow])]
    have hhalfm : 2 ^ (m + 1) / 2 = 2 ^ m := by
      rw [pow_succ']
      omega
    rw [hhalfm,
      chunkButterfly_first_irrel g _
        (by rw [List.length_append, List.length_map, List.length_map,
          List.length_range, hpow]),
      chunkButterfly_maps, hpow, List.range_add, List.map_append, List.map_map]
    have h2m2 : (2 : ℕ) ^ m + 2 ^ m = 2 * 2 ^ m := by omega
    congr 1
    · apply List.map_congr_left
      intro t ht
      show (∑ u ∈ Finset.range (2 ^ m), (g ^ 2) ^ (t * u) * f (2 * u)) +
          (∑ u ∈ Finset.range (2 ^ m), (g ^ 2) ^ (t * u) * f (2 * u + 1)) * g ^ t =
        ∑ u ∈ Finset.range (2 ^ m + 2 ^ m), g ^ (t * u) * f u
      have key3 : ∀ u : ℕ, g ^ (t * (2 * u)) = (g ^ 2) ^ (t * u) := by
        intro u
        have hexp : t * (2 * u) = 2 * (t * u) := by ring
        rw [hexp, pow_mul]
      have key4 : ∀ u : ℕ, g ^ (t * (2 * u + 1)) = (g ^ 2) ^ (t * u) * g ^ t := by
        intro u
        have hexp : t * (2 * u + 1) = 2 * (t * u) + t := by ring
        rw [hexp, pow_add, pow_mul]
      rw [h2m2, sum_range_even_odd]
      have hP : (∑ u ∈ Finset.range (2 ^ m), g ^ (t * (2 * u)) * f (2 * u)) =
          ∑ u ∈ Finset.range (2 ^ m), (g ^ 2) ^ (t * u) * f (2 * u) :=
        Finset.sum_congr rfl (fun u _ => by rw [key3 u])
      have hQ : (∑ u ∈ Finset.range (2 ^ m), g ^ (t * (2 * u + 1)) * f (2 * u + 1)) =
          (∑ u ∈ Finset.range (2 ^ m), (g ^ 2) ^ (t * u) * f (2 * u + 1)) * g ^ t := by
        rw [Finset.sum_mul]
        exact Finset.sum_congr rfl (fun u _ => by rw [key4 u]; ring)
      rw [hP, hQ]
    · apply List.map_congr_left
      intro t ht
      show (∑ u ∈ Finset.range (2 ^ m), (g ^ 2) ^ (t * u) * f (2 * u)) -
          (∑ u ∈ Finset.range (2 ^ m), (g ^ 2) ^ (t * u) * f (2 * u + 1)) * g ^ t =
        ∑ u ∈ Finset.range (2 ^ m + 2 ^ m), g ^ ((2 ^ m + t) * u) * f u
      have key1 : ∀ u : ℕ, g ^ ((2 ^ m + t) * (2 * u)) = (g ^ 2) ^ (t * u) := by
        intro u
        have hexp : (2 ^ m + t) * (2 * u) = 2 ^ (m + 1) * u + 2 * (t * u) := by
          rw [pow_succ']
          ring
        rw [hexp, pow_add, pow_mul g (2 ^ (m + 1)) u, hg1, one_pow, one_mul, pow_mul]
      have key2 : ∀ u : ℕ,
          g ^ ((2 ^ m + t) * (2 * u + 1)) = -((g ^ 2) ^ (t * u) * g ^ t) := by
        intro u
        have hexp : (2 ^ m + t) * (2 * u + 1) =
            2 ^ (m + 1) * u + 2 * (t * u) + 2 ^ m + t := by
          rw [pow_succ']
          ring
        rw [hexp, pow_add, pow_add, pow_add, pow_mul g (2 ^ (m + 1)) u, hg1,
          one_pow, one_mul, hgm', pow_mul]
        ring
      rw [h2m2, sum_range_even_odd]
      have hP2 : (∑ u ∈ Finset.range (2 ^ m),
            g ^ ((2 ^ m + t) * (2 * u)) * f (2 * u)) =
          ∑ u ∈ Finset.range (2 ^ m), (g ^ 2) ^ (t * u) * f (2 * u) :=
        Finset.sum_congr rfl (fun u _ => by rw [key1 u])
      have hQ2 : (∑ u ∈ Finset.range (2 ^ m),
            g ^ ((2 ^ m + t) * (2 * u + 1)) * f (2 * u + 1)) =
          -((∑ u ∈ Finset.range (2 ^ m), (g ^ 2) ^ (t * u) * f (2 * u + 1)) * g ^ t) := by
        rw [Finset.sum_mul, ← Finset.sum_neg_distrib]
        exact Finset.sum_congr rfl (fun u _ => by rw [key2 u]; ring)
      rw [hP2, hQ2]
      ring

end ScalarFFT

section Endgame

variable {K : Type} [Field K] [DecidableEq K]

theorem smul_mod_of_order {a b : K} {r : ℕ} {PG : (Wcurve a b).Point}
    (hrPG : r • PG = 0) (n : ℕ) : n • PG = (n % r) • PG := by
  have hn : n % r + n / r * r = n := Nat.mod_add_div' n r
  calc n • PG = (n % r + n / r * r) • PG := by rw [hn]
    _ = (n % r) • PG + (n / r * r) • PG := by rw [add_nsmul]
    _ = (n % r) • PG + (n / r) • (r • PG) := by rw [smul_smul]
    _ = (n % r) • PG := by rw [hrPG, smul_zero, add_zero]

theorem val_smul_add {a b : K} {r : ℕ} [NeZero r] {PG : (Wcurve a b).Point}
    (hrPG : r • PG = 0) (c d : ZMod r) :
    (ZMod.val (c + d)) • PG = (ZMod.val c) • PG + (ZMod.val d) • PG := by
  rw [ZMod.val_add, ← smul_mod_of_order hrPG, add_nsmul]

theorem val_smul_mul {a b : K} {r : ℕ} [NeZero r] {PG : (Wcurve a b).Point}
    (hrPG : r • PG = 0) (c d : ZMod r) :
    (ZMod.val (c * d)) • PG = (ZMod.val c) • ((ZMod.val d) • PG) := by
  rw [ZMod.val_mul, ← smul_mod_of_order hrPG, ← smul_smul]

theorem val_smul_sub {a b : K} {r : ℕ} [NeZero r] {PG : (Wcurve a b).Point}
    (hrPG : r • PG = 0) (c d : ZMod r) :
    (ZMod.val (c - d)) • PG = (ZMod.val c) • PG - (ZMod.val d) • PG := by
  have h := val_smul_add hrPG (c - d) d
  rw [sub_add_cancel] at h
  exact eq_sub_iff_add_eq.mpr h.symm

theorem val_smul_eq_zero_iff {a b : K} {r : ℕ} (hr : r.Prime)
    {PG : (Wcurve a b).Point} (hrPG : r • PG = 0) (hPG : PG ≠ 0) (c : ZMod r) :
    (ZMod.val c) • PG = 0 ↔ c = 0 := by
  haveI : NeZero r := ⟨hr.ne_zero⟩
  have hord : addOrderOf PG = r := by
    have hdvd : addOrderOf PG ∣ r := addOrderOf_dvd_of_nsmul_eq_zero hrPG
    rcases hr.eq_one_or_self_of_dvd _ hdvd with h1 | hr'
    · exact absurd (AddMonoid.addOrderOf_eq_one_iff.mp h1) hPG
    · exact hr'
  constructor
  · intro h
    have hdvd : addOrderOf PG ∣ ZMod.val c := addOrderOf_dvd_of_nsmul_eq_zero h
    rw [hord] at hdvd
    exact (ZMod.val_eq_zero c).mp (Nat.eq_zero_of_dvd_of_lt hdvd (ZMod.val_lt c))
  · intro h
    rw [h, ZMod.val_zero, zero_smul]

theorem pairButterfly_rep {a b : K} {p1 p2 : K × K} {P Q : (Wcurve a b).Point}
    (h1 : PRep a b (some p1) P) (h2 : PRep a b (some p2) Q)
    (hd : p2.1 - p1.1 ≠ 0) :
    PRep a b (some ((pairButterfly (p1, p2)).1)) (P + Q) ∧
    PRep a b (some ((pairButterfly (p1, p2)).2)) (P - Q) := by
  obtain ⟨x₁, y₁⟩ := p1
  obtain ⟨x₂, y₂⟩ := p2
  have hd' : x₂ - x₁ ≠ 0 := hd
  have hx : x₁ ≠ x₂ := fun h => hd' (by rw [h, sub_self])
  constructor
  · have hadd := ecAdd_rep h1 h2
    have hform : ecAdd a (some (x₁, y₁)) (some (x₂, y₂)) =
        some ((pairButterfly ((x₁, y₁), (x₂, y₂))).1) := by
      simp only [ecAdd]
      rw [if_neg hx]
      simp only [pairButterfly, Option.some.injEq, Prod.mk.injEq]
      exact ⟨by ring, by ring⟩
    rw [hform] at hadd
    exact hadd
  · have hneg : PRep a b (some (x₂, -y₂)) (-Q) := ecNeg_rep h2
    have hadd := ecAdd_rep h1 hneg
    rw [← sub_eq_add_neg] at hadd
    have hform : ecAdd a (some (x₁, y₁)) (some (x₂, -y₂)) =
        some ((pairButterfly ((x₁, y₁), (x₂, y₂))).2) := by
      simp only [ecAdd]
      rw [if_neg hx]
      simp only [pairButterfly, Option.some.injEq, Prod.mk.injEq]
      exact ⟨by ring, by ring⟩
    rw [hform] at hadd
    exact hadd

theorem fft_round_ok_prod (a : K) (r : ℕ) (isF : Bool) (pts : List (K × K))
    (g : ZMod r) (i : ℕ) (out : List (K × K))
    (hok : fft_round a r isF pts g i = Except.ok out) :
    ((pairUp (2 ^ i) (2 ^ i / 2)
        (if isF then pts else twistPoints a r (2 ^ i) (2 ^ i / 2) pts g)).map
      (fun pr => pr.2.1 - pr.1.1)).prod ≠ 0 := by
  intro hzero
  set prs := pairUp (2 ^ i) (2 ^ i / 2)
    (if isF then pts else twistPoints a r (2 ^ i) (2 ^ i / 2) pts g) with hprs
  have hfwd : (fwdPass (1 : K) prs).1 = 0 := by
    rw [fwdPass_acc, one_mul]
    exact hzero
  have hunfold : fft_round a r isF pts g i =
      if (fwdPass (1 : K) prs).1 = 0 then
        Except.error (InterpolationError.FieldError
          "Could not invert batch inversion accumulator")
      else
        Except.ok (((chunkExact (2 ^ i / 2)
          (bwdPass ((fwdPass (1 : K) prs).1)⁻¹
            ((prs.map Prod.fst).zip (fwdPass (1 : K) prs).2)).2).map
          (fun pss => pss.map Prod.fst ++ pss.map Prod.snd)).flatten) := by
    rw [fft_round, hprs]
  rw [hunfold, if_pos hfwd] at hok
  exact Except.noConfusion hok

theorem round_transfer_ok (a : K) (r : ℕ) (Rel : (K × K) → ZMod r → Prop)
    (hsm : ∀ (p : K × K) (c gp : ZMod r), gp ≠ 0 → Rel p c →
      Rel (pointSmul a r gp p) (c * gp))
    (hbf : ∀ p1 c1 p2 c2, Rel p1 c1 → Rel p2 c2 → p2.1 - p1.1 ≠ 0 →
      Rel (pairButterfly (p1, p2)).1 (c1 + c2) ∧
      Rel (pairButterfly (p1, p2)).2 (c1 - c2))
    (hnzmul : ∀ x y : ZMod r, x ≠ 0 → y ≠ 0 → x * y ≠ 0)
    (isF : Bool) (g : ZMod r) (hg : g ≠ 0) (i : ℕ)
    (pts : List (K × K)) (cs : List (ZMod r)) (hrel : List.Forall₂ Rel pts cs)
    (out : List (K × K)) (hok : fft_round a r isF pts g i = Except.ok out) :
    List.Forall₂ Rel out (scalarRound isF cs g i) := by
  have hprod := fft_round_ok_prod a r isF pts g i out hok
  obtain ⟨h1, h2⟩ := round_transfer a r Rel hsm hbf hnzmul isF g hg i pts cs hrel hprod
  rw [hok] at h1
  rwa [← Except.ok.inj h1] at h2

theorem srs_rounds_transfer (a : K) (r : ℕ) (Rel : (K × K) → ZMod r → Prop)
    (hsm : ∀ (p : K × K) (c gp : ZMod r), gp ≠ 0 → Rel p c →
      Rel (pointSmul a r gp p) (c * gp))
    (hbf : ∀ p1 c1 p2 c2, Rel p1 c1 → Rel p2 c2 → p2.1 - p1.1 ≠ 0 →
      Rel (pairButterfly (p1, p2)).1 (c1 + c2) ∧
      Rel (pairButterfly (p1, p2)).2 (c1 - c2))
    (hnzmul : ∀ x y : ZMod r, x ≠ 0 → y ≠ 0 → x * y ≠ 0)
    (genInv : ZMod r) (hg : ∀ k : ℕ, genInv ^ k ≠ 0) (n : ℕ) :
    ∀ (log : ℕ) (pts : List (K × K)) (cs : List (ZMod r)) (out : List (K × K)),
      List.Forall₂ Rel pts cs →
      srs_rounds a r genInv n log pts = Except.ok out →
      List.Forall₂ Rel out (scalar_rounds genInv n log cs) := by
  intro log
  induction log with
  | zero =>
    intro pts cs out hrel hok
    rw [srs_rounds_zero] at hok
    rw [scalar_rounds_zero]
    exact Except.ok.inj hok ▸ hrel
  | succ m ih =>
    intro pts cs out hrel hok
    rw [srs_rounds_succ] at hok
    cases hmid : srs_rounds a r genInv n m pts with
    | error e =>
      rw [hmid] at hok
      exact Except.noConfusion hok
    | ok mid =>
      rw [hmid] at hok
      have hok' : fft_round a r (decide (m + 1 = 1)) mid
          (genInv ^ (n >>> (m + 1))) (m + 1) = Except.ok out := hok
      rw [scalar_rounds_succ]
      exact round_transfer_ok a r Rel hsm hbf hnzmul _ _ (hg (n >>> (m + 1))) _
        mid (scalar_rounds genInv n m cs) (ih pts cs mid hrel hmid) out hok'

theorem endgame_hsm {a b : K} {r : ℕ} (hr : r.Prime) {PG : (Wcurve a b).Point}
    (hrPG : r • PG = 0) (hPG : PG ≠ 0) :
    ∀ (p : K × K) (c gp : ZMod r), gp ≠ 0 →
      (c ≠ 0 ∧ PRep a b (some p) ((ZMod.val c) • PG)) →
      (c * gp ≠ 0 ∧ PRep a b (some (pointSmul a r gp p)) ((ZMod.val (c * gp)) • PG)) := by
  haveI : Fact r.Prime := ⟨hr⟩
  haveI : NeZero r := ⟨hr.ne_zero⟩
  rintro p c gp hgp ⟨hc, hrep⟩
  have hcg : c * gp ≠ 0 := mul_ne_zero hc hgp
  refine ⟨hcg, ?_⟩
  have hsm := ecSmul_rep hrep (ZMod.val gp)
  have hval : (ZMod.val gp) • ((ZMod.val c) • PG) = (ZMod.val (c * gp)) • PG := by
    rw [← val_smul_mul hrPG gp c, mul_comm gp c]
  rw [hval] at hsm
  have hnz : (ZMod.val (c * gp)) • PG ≠ 0 := fun h =>
    hcg ((val_smul_eq_zero_iff hr hrPG hPG _).mp h)
  cases hsml : ecSmul a (ZMod.val gp) (some p) with
  | none =>
    rw [hsml] at hsm
    exact absurd hsm hnz
  | some q =>
    rw [hsml] at hsm
    have hps : pointSmul a r gp p = q := by
      unfold pointSmul
      rw [hsml]
    rw [hps]
    exact hsm

theorem endgame_hbf {a b : K} {r : ℕ} (hr : r.Prime) {PG : (Wcurve a b).Point}
    (hrPG : r • PG = 0) (hPG : PG ≠ 0) :
    ∀ (p1 : K × K) (c1 : ZMod r) (p2 : K × K) (c2 : ZMod r),
      (c1 ≠ 0 ∧ PRep a b (some p1) ((ZMod.val c1) • PG)) →
      (c2 ≠ 0 ∧ PRep a b (some p2) ((ZMod.val c2) • PG)) →
      p2.1 - p1.1 ≠ 0 →
      ((c1 + c2 ≠ 0 ∧
          PRep a b (some ((pairButterfly (p1, p2)).1)) ((ZMod.val (c1 + c2)) • PG)) ∧
        (c1 - c2 ≠ 0 ∧
          PRep a b (some ((pairButterfly (p1, p2)).2)) ((ZMod.val (c1 - c2)) • PG))) := by
  haveI : NeZero r := ⟨hr.ne_zero⟩
  rintro p1 c1 p2 c2 ⟨hc1, h1⟩ ⟨hc2, h2⟩ hd
  have hpb := pairButterfly_rep h1 h2 hd
  have hsum : c1 + c2 ≠ 0 := by
    intro hz
    have hPQ : (ZMod.val c1) • PG + (ZMod.val c2) • PG = 0 := by
      rw [← val_smul_add hrPG, hz, ZMod.val_zero, zero_smul]
    have hP : (ZMod.val c1) • PG = -((ZMod.val c2) • PG) := by
      rw [eq_neg_iff_add_eq_zero]
      exact hPQ
    have hnegrep : PRep a b (some (p2.1, -p2.2)) (-((ZMod.val c2) • PG)) :=
      ecNeg_rep h2
    rw [← hP] at hnegrep
    have heq := PRep_left_unique h1 hnegrep
    have hfst : p1.1 = p2.1 := congrArg (fun o => (o.getD (0, 0)).1) heq
    exact hd (by rw [← hfst, sub_self])
  have hdiff : c1 - c2 ≠ 0 := by
    intro hz
    have hPQ : (ZMod.val c1) • PG - (ZMod.val c2) • PG = 0 := by
      rw [← val_smul_sub hrPG, hz, ZMod.val_zero, zero_smul]
    have hP : (ZMod.val c1) • PG = (ZMod.val c2) • PG := sub_eq_zero.mp hPQ
    rw [← hP] at h2
    have heq := PRep_left_unique h1 h2
    have hfst : p1.1 = p2.1 := congrArg (fun o => (o.getD (0, 0)).1) heq
    exact hd (by rw [← hfst, sub_self])
  refine ⟨⟨hsum, ?_⟩, hdiff, ?_⟩
  · rw [val_smul_add hrPG]
    exact hpb.1
  · rw [val_smul_sub hrPG]
    exact hpb.2

theorem msm_rep {a b : K} {r : ℕ} [NeZero r] {PG : (Wcurve a b).Point}
    (hrPG : r • PG = 0) :
    ∀ {pts : List (K × K)} {cs : List (ZMod r)},
      List.Forall₂ (fun pt c => PRep a b (some pt) ((ZMod.val c) • PG)) pts cs →
      ∀ v : List (ZMod r),
        PRep a b (msm a r v pts)
          ((ZMod.val (List.zipWith (· * ·) v cs).sum) • PG) := by
  intro pts cs hrel
  induction hrel with
  | nil =>
    intro v
    have h1 : msm a r v [] = none := by
      unfold msm
      rw [List.zipWith_nil_right]
      rfl
    rw [h1, List.zipWith_nil_right]
    show (ZMod.val (List.sum ([] : List (ZMod r)))) • PG = 0
    rw [List.sum_nil, ZMod.val_zero, zero_smul]
  | @cons pt c pts2 cs2 hP hrest ih =>
    intro v
    cases v with
    | nil =>
      show (ZMod.val (List.sum ([] : List (ZMod r)))) • PG = 0
      rw [List.sum_nil, ZMod.val_zero, zero_smul]
    | cons w v2 =>
      show PRep a b
        (ecAdd a (ecSmul a (ZMod.val w) (some pt)) (msm a r v2 pts2)) _
      have hsm := ecSmul_rep hP (ZMod.val w)
      have hadd := ecAdd_rep hsm (ih v2)
      have heq : (ZMod.val (List.zipWith (· * ·) (w :: v2) (c :: cs2)).sum) • PG =
          (ZMod.val w) • ((ZMod.val c) • PG) +
            (ZMod.val (List.zipWith (· * ·) v2 cs2).sum) • PG := by
        rw [List.zipWith_cons_cons, List.sum_cons, val_smul_add hrPG,
          val_smul_mul hrPG]
      rw [heq]
      exact hadd

theorem list_sum_map_range {F : Type} [AddCommMonoid F] (f : ℕ → F) :
    ∀ n : ℕ, ((List.range n).map f).sum = ∑ u ∈ Finset.range n, f u := by
  intro n
  induction n with
  | zero => rfl
  | succ n ih =>
    rw [List.range_succ, List.map_append, List.sum_append, Finset.sum_range_succ, ih]
    simp

theorem zipWith_mul_map_range {F : Type} [CommRing F] :
    ∀ (v : List F) (h : ℕ → F),
      (List.zipWith (· * ·) v ((List.range v.length).map h)).sum =
      ∑ t ∈ Finset.range v.length, v.getD t 0 * h t := by
  intro v
  induction v with
  | nil => intro h; simp
  | cons w v2 ih =>
    intro h
    show (List.zipWith (· * ·) (w :: v2) ((List.range (v2.length + 1)).map h)).sum = _
    rw [List.range_succ_eq_map, List.map_cons, List.map_map, List.zipWith_cons_cons,
      List.sum_cons, ih (h ∘ Nat.succ), List.length_cons, Finset.sum_range_succ']
    simp only [List.getD_cons_succ, List.getD_cons_zero, Function.comp,
      Nat.succ_eq_add_one]
    ring

theorem zipWith_mul_map_map {F : Type} [CommRing F] (f g : ℕ → F) (l : List ℕ) :
    (List.zipWith (· * ·) (l.map f) (l.map g)).sum =
      (l.map (fun x => f x * g x)).sum := by
  rw [List.zipWith_map, List.zipWith_same]

theorem fubini_dot {F : Type} [CommRing F] (N : ℕ) (vf : ℕ → F)
    (gen nInv s : F) :
    (∑ t ∈ Finset.range N, vf t *
        ((∑ u ∈ Finset.range N, gen ^ (t * u) * s ^ u) * nInv)) =
      ∑ j ∈ Finset.range N,
        (nInv * ∑ t ∈ Finset.range N, vf t * gen ^ (t * j)) * s ^ j := by
  simp only [Finset.sum_mul, Finset.mul_sum]
  rw [Finset.sum_comm]
  apply Finset.sum_congr rfl
  intro j _
  apply Finset.sum_congr rfl
  intro t _
  ring

theorem collectOrdered_eq (points : List (K × K)) (log : ℕ) (hlog : log ≤ 63)
    (hlen : 2 ^ log ≤ points.length) :
    ∀ idx : List ℕ, collectOrdered points log idx =
      some (Except.ok (idx.map (fun i => points.getD (natRev log i) (0, 0)))) := by
  intro idx
  induction idx with
  | nil => rfl
  | cons i rest ih =>
    have hj : natRev log i < points.length :=
      lt_of_lt_of_le (natRev_lt log i) hlen
    have hget : points[natRev log i]? = some (points.getD (natRev log i) (0, 0)) := by
      rw [List.getElem?_eq_getElem hj, List.getD_eq_getElem points (0, 0) hj]
    have hstep : collectOrdered points log (i :: rest) =
        match points[natRev log i]? with
        | none => none
        | some p =>
          match collectOrdered points log rest with
          | none => none
          | some (Except.error e) => some (Except.error e)
          | some (Except.ok l) => some (Except.ok (p :: l)) := by
      show (match bit_reverse i log with
        | none => none
        | some (Except.error e) => some (Except.error e)
        | some (Except.ok j) =>
          match points[j]? with
          | none => none
          | some p =>
            match collectOrdered points log rest with
            | none => none
            | some (Except.error e) => some (Except.error e)
            | some (Except.ok l) => some (Except.ok (p :: l))) = _
      rw [bit_reverse_eq_natRev i log hlog]
    rw [hstep, hget, ih]
    rfl

theorem forall₂_map_of_mem {α β γ : Type} {R : β → γ → Prop} {f : α → β}
    {g : α → γ} {l : List α} (h : ∀ x ∈ l, R (f x) (g x)) :
    List.Forall₂ R (l.map f) (l.map g) := by
  induction l with
  | nil => exact List.Forall₂.nil
  | cons x xs ih =>
    exact List.Forall₂.cons (h x (List.mem_cons_self _ _))
      (ih (fun y hy => h y (List.mem_cons_of_mem _ hy)))

/-- C1: for every SRS of power-of-two length n = 2^m whose points are the
secret powers [s^0]G .. [s^(n-1)]G over a nonsingular curve, whenever
srs_to_lagrange succeeds on it, the multi-scalar combination of its output
against any evaluation vector v of length n equals, as a curve point, the
multi-scalar combination of the input SRS against the inverse-FFT
coefficients of v, the inverse FFT being normalized by the inverse of the
domain size exactly as the final rescale of the code. -/
theorem srs_to_lagrange_commitment_equiv
    (a b : K) (r m : ℕ) (hr : r.Prime) (hm63 : m ≤ 63)
    (hΔ : (Wcurve a b).Δ ≠ 0)
    (G : K × K) (hG : onCurve a b G)
    (sfInv : ZMod r → ZMod r)
    (hsfInv : ∀ x : ZMod r, x ≠ 0 → sfInv x * x = 1)
    (genInv : ZMod r)
    (hgen1 : genInv ^ (2 ^ m) = 1)
    (hgenm : 1 ≤ m → genInv ^ (2 ^ (m - 1)) = -1)
    (s : ZMod r)
    (ps : List (K × K)) (hlen : ps.length = 2 ^ m)
    (hGord : ecSmul a r (some G) = none)
    (hps : ∀ i : ℕ, i < 2 ^ m → ps[i]? = ecSmul a (ZMod.val (s ^ i)) (some G))
    (v : List (ZMod r)) (hv : v.length = 2 ^ m)
    (out : List (K × K))
    (hout : srs_to_lagrange a r sfInv (some genInv) ps = some (Except.ok out)) :
    msm a r v out = msm a r (ifft (sfInv ((2 ^ m : ℕ) : ZMod r)) genInv v) ps := by
  haveI hFact : Fact r.Prime := ⟨hr⟩
  haveI : NeZero r := ⟨hr.ne_zero⟩
  have hGns : (Wcurve a b).Nonsingular G.1 G.2 := Wcurve_nonsingular hΔ hG
  have hGrep : PRep a b (some G) (WeierstrassCurve.Affine.Point.some hGns) :=
    ⟨hGns, rfl⟩
  set PG : (Wcurve a b).Point := WeierstrassCurve.Affine.Point.some hGns with hPGdef
  have hrPG : r • PG = 0 := by
    have h := ecSmul_rep hGrep r
    rw [hGord] at h
    exact h
  have hPG0 : PG ≠ 0 := WeierstrassCurve.Affine.Point.some_ne_zero hGns
  rcases Nat.eq_zero_or_pos m with hm0 | hmpos
  · subst hm0
    have hlog : usize_ilog2 ps.length = some 0 := by
      rw [hlen, usize_ilog2_eq (2 ^ 0) (by norm_num), pow_log2_self]
    rw [srs_to_lagrange_unfold a r sfInv (some genInv) ps 0 hlog] at hout
    rw [if_neg (by rw [hlen]; exact fun h => h rfl)] at hout
    rw [if_pos (by rw [hlen]; norm_num)] at hout
    have hpsout : ps = out := Except.ok.inj (Option.some.inj hout)
    obtain ⟨w, hw⟩ := List.length_eq_one.mp (by rw [hv]; norm_num : v.length = 1)
    have hinv1 : sfInv ((2 ^ 0 : ℕ) : ZMod r) = 1 := by
      have h1 : ((2 ^ 0 : ℕ) : ZMod r) = 1 := by norm_num
      rw [h1]
      have h2 := hsfInv 1 one_ne_zero
      rwa [mul_one] at h2
    have hinv2 : sfInv (1 : ZMod r) = 1 := by
      have h2 := hsfInv 1 one_ne_zero
      rwa [mul_one] at h2
    have hifft : ifft (sfInv ((2 ^ 0 : ℕ) : ZMod r)) genInv v = v := by
      subst hw
      unfold ifft
      simp [hinv1, hinv2, List.range_succ]
    rw [← hpsout, hifft]
  · have hn2 : 2 ≤ 2 ^ m := by
      calc 2 = 2 ^ 1 := rfl
        _ ≤ 2 ^ m := Nat.pow_le_pow_right (by norm_num) hmpos
    have hs0 : s ≠ 0 := by
      intro hs
      have h1 := hps 1 (by omega)
      rw [List.getElem?_eq_getElem (by rw [hlen]; omega : 1 < ps.length)] at h1
      rw [hs] at h1
      have h2 : ecSmul a (ZMod.val ((0 : ZMod r) ^ 1)) (some G) = none := by
        rw [pow_one, ZMod.val_zero]
        rfl
      rw [h2] at h1
      exact Option.noConfusion h1
    have hlogps : usize_ilog2 ps.length = some m := by
      rw [hlen, usize_ilog2_eq (2 ^ m) (Nat.pos_pow_of_pos m (by norm_num)).ne',
        pow_log2_self]
    rw [srs_to_lagrange_unfold a r sfInv (some genInv) ps m hlogps] at hout
    rw [if_neg (by rw [hlen]; exact fun h => h rfl)] at hout
    rw [if_neg (by rw [hlen]; omega)] at hout
    rw [hlen, collectOrdered_eq ps m hm63 (le_of_eq hlen.symm)
      (List.range (2 ^ m))] at hout
    set ordered := (List.range (2 ^ m)).map (fun i => ps.getD (natRev m i) (0, 0))
      with hord
    set nInv := sfInv ((2 ^ m : ℕ) : ZMod r) with hnI
    have hout2 : (match srs_rounds a r genInv (2 ^ m) m ordered with
        | Except.error e => some (Except.error e)
        | Except.ok transformed =>
          if ((2 ^ m : ℕ) : ZMod r) = 0 then
            some (Except.error (InterpolationError.FieldError
              "Could not invert domain size"))
          else
            some (Except.ok (transformed.map
              (fun p => pointSmul a r nInv p)))) = some (Except.ok out) := hout
    cases hsrs : srs_rounds a r genInv (2 ^ m) m ordered with
    | error e =>
      rw [hsrs] at hout2
      exact Except.noConfusion (Option.some.inj hout2)
    | ok transformed =>
      rw [hsrs] at hout2
      have hout3 : (if ((2 ^ m : ℕ) : ZMod r) = 0 then
          some (Except.error (InterpolationError.FieldError
            "Could not invert domain size"))
        else some (Except.ok (transformed.map
          (fun p => pointSmul a r nInv p)))) = some (Except.ok out) := hout2
      by_cases hnz : ((2 ^ m : ℕ) : ZMod r) = 0
      · rw [if_pos hnz] at hout3
        exact Except.noConfusion (Option.some.inj hout3)
      · rw [if_neg hnz] at hout3
        have hmap : transformed.map (fun p => pointSmul a r nInv p) = out :=
          Except.ok.inj (Option.some.inj hout3)
        have hnInv : nInv ≠ 0 := by
          intro h0
          have hsf := hsfInv _ hnz
          rw [hnI] at h0
          rw [h0, zero_mul] at hsf
          exact zero_ne_one hsf
        have hgen0 : genInv ≠ 0 := by
          intro h0
          rw [h0, zero_pow (Nat.pos_pow_of_pos m (by norm_num)).ne'] at hgen1
          exact zero_ne_one hgen1
        have hinit : List.Forall₂
            (fun pt c => c ≠ 0 ∧ PRep a b (some pt) ((ZMod.val c) • PG))
            ordered ((List.range (2 ^ m)).map (fun i => s ^ natRev m i)) := by
          rw [hord]
          apply forall₂_map_of_mem
          intro i hi
          have hidx : natRev m i < 2 ^ m := natRev_lt m i
          have hpsi := hps (natRev m i) hidx
          have hgetl : ps[natRev m i]? =
              some (ps.getD (natRev m i) (0, 0)) := by
            rw [List.getElem?_eq_getElem (by rw [hlen]; exact hidx),
              List.getD_eq_getElem ps (0, 0) (by rw [hlen]; exact hidx)]
          rw [hgetl] at hpsi
          refine ⟨pow_ne_zero _ hs0, ?_⟩
          have hrep := ecSmul_rep hGrep (ZMod.val (s ^ natRev m i))
          rw [← hpsi] at hrep
          exact hrep
        have htrans := srs_rounds_transfer a r
          (fun pt c => c ≠ 0 ∧ PRep a b (some pt) ((ZMod.val c) • PG))
          (endgame_hsm hr hrPG hPG0) (endgame_hbf hr hrPG hPG0)
          (fun x y hx hy => mul_ne_zero hx hy)
          genInv (fun k => pow_ne_zero k hgen0) (2 ^ m) m ordered
          ((List.range (2 ^ m)).map (fun i => s ^ natRev m i))
          transformed hinit hsrs
        rw [scalar_fft m genInv (fun u => s ^ u) hgen1 hgenm] at htrans
        have hout_rel : List.Forall₂
            (fun pt c => c ≠ 0 ∧ PRep a b (some pt) ((ZMod.val c) • PG))
            out ((List.range (2 ^ m)).map (fun t =>
              (∑ u ∈ Finset.range (2 ^ m), genInv ^ (t * u) * s ^ u) * nInv)) := by
          rw [← hmap]
          have h2 : List.Forall₂
              (fun pt c => c ≠ 0 ∧ PRep a b (some pt) ((ZMod.val c) • PG))
              (transformed.map (fun p => pointSmul a r nInv p))
              (((List.range (2 ^ m)).map (fun t =>
                ∑ u ∈ Finset.range (2 ^ m), genInv ^ (t * u) * s ^ u)).map
                (fun c => c * nInv)) :=
            forall₂_map_mem htrans (fun _ _ => trivial)
              (fun pt c hrel _ => endgame_hsm hr hrPG hPG0 pt c nInv hnInv hrel)
          rw [List.map_map] at h2
          exact h2
        have hout_rep : List.Forall₂
            (fun pt c => PRep a b (some pt) ((ZMod.val c) • PG))
            out ((List.range (2 ^ m)).map (fun t =>
              (∑ u ∈ Finset.range (2 ^ m), genInv ^ (t * u) * s ^ u) * nInv)) :=
          hout_rel.imp (fun x y h => h.2)
        have hps_rep : List.Forall₂
            (fun pt c => PRep a b (some pt) ((ZMod.val c) • PG))
            ps ((List.range (2 ^ m)).map (fun j => s ^ j)) := by
          rw [List.forall₂_iff_get]
          constructor
          · rw [hlen, List.length_map, List.length_range]
          · intro i h1 h2
            rw [List.get_eq_getElem, List.get_eq_getElem, List.getElem_map,
              List.getElem_range]
            have hiN : i < 2 ^ m := by rw [hlen] at h1; exact h1
            have hpsi := hps i hiN
            rw [List.getElem?_eq_getElem h1] at hpsi
            have hrep := ecSmul_rep hGrep (ZMod.val (s ^ i))
            rw [← hpsi] at hrep
            exact hrep
        have hmsm1 := msm_rep hrPG hout_rep v
        have hmsm2 := msm_rep hrPG hps_rep (ifft nInv genInv v)
        have hdots : (List.zipWith (· * ·) v
              ((List.range (2 ^ m)).map (fun t =>
                (∑ u ∈ Finset.range (2 ^ m), genInv ^ (t * u) * s ^ u) * nInv))).sum =
            (List.zipWith (· * ·) (ifft nInv genInv v)
              ((List.range (2 ^ m)).map (fun j => s ^ j))).sum := by
          unfold ifft
          rw [← hv]
          rw [zipWith_mul_map_range, zipWith_mul_map_map, list_sum_map_range]
          simp only [list_sum_map_range]
          exact fubini_dot v.length (fun t => v.getD t 0) genInv nInv s
        rw [hdots] at hmsm1
        exact PRep_left_unique hmsm1 hmsm2

attribute [local semireducible] Rat.mul Rat.add Rat.sub Rat.inv in
/-- Witness for C1 at the length-one SRS over the rationals on the curve
y^2 = x^3 + 1 with the order-two generator (-1, 0), scalar field of order
two, secret 1 and evaluation vector [1]. -/
theorem srs_to_lagrange_commitment_equiv_witness :
    msm (0 : ℚ) 2 [1] [((-1 : ℚ), (0 : ℚ))] =
      msm (0 : ℚ) 2 (ifft (id (((2 ^ 0 : ℕ) : ZMod 2))) 1 [1])
        [((-1 : ℚ), (0 : ℚ))] :=
  srs_to_lagrange_commitment_equiv (0 : ℚ) 1 2 0 (by norm_num) (by decide)
    (by decide) (-1, 0) (by decide) id (by decide) 1 (by decide) (by decide)
    1 [(-1, 0)] (by decide) (by decide) (by decide) [1] (by decide)
    [(-1, 0)] (by decide)

end Endgame

end SrsVerif
